import Mathlib

/-!
Verification development for the line tessellation core of this repository
(renderer/buckets/line_bucket).  The repository snapshot contains only the
class declaration `line_bucket.hpp`; the member-function bodies
(`line_bucket.cpp`) are absent.  The operational definitions below are
therefore modelled from the specification document, as indicated by the
doc comments starting with `Modelled from the spec:` on each such
definition.  The data model (vertex / triangle / segment accumulators,
the 16-bit `TriangleElement`, the `addGeometry` / `addCurrentVertex` /
`addPieSliceVertex` interface and the per-line triangle store with
line-relative indices) follows the declarations that are present in
`line_bucket.hpp`.

Modelling conventions, chosen so that every definition is executable:
* Coordinates are exact integer pairs (tile-local space).
* Extrusion directions are recorded symbolically (`ExtrKind`): the
  unnormalised perpendicular of a sub-segment direction, a symbolic miter
  of two directions, a bevel corner, or a pie-slice interpolant.  The
  real-valued unit-normal semantics appears in theorem statements, where
  `Real.sqrt` is available; the exact rational kernel for unit normals is
  `miterNormalQ`.
* `linesofar` is recorded as the formal list of sub-segments traversed so
  far (`travelled`); its numeric value is the sum of any chosen
  nonnegative length function over that list (in the program: Euclidean
  length, which is irrational on the integer grid and hence kept
  symbolic).  All monotonicity statements are proved for every
  nonnegative length function, in particular the Euclidean one.
* The miter-overflow test is decided exactly over the integers via
  `sqrtMulGT`, which decides `Real.sqrt n * A > B` by sign analysis and
  squaring.
-/

namespace LineTess

/-- Tile-local integer coordinate, the `GeometryCoordinate` of the source. -/
abbrev Coord := ℤ × ℤ

/-- Direction vector of the sub-segment from `p` to `q`. -/
def dirOf (p q : Coord) : Coord := (q.1 - p.1, q.2 - p.2)

/-- Cross product (z-component) of two direction vectors. -/
def crossZ (a b : Coord) : ℤ := a.1 * b.2 - a.2 * b.1

/-- Dot product of two direction vectors. -/
def dotZ (a b : Coord) : ℤ := a.1 * b.1 + a.2 * b.2

/-- Squared Euclidean norm of a direction vector. -/
def sqNorm (a : Coord) : ℤ := a.1 ^ 2 + a.2 ^ 2

/-- Line cap styles, from the style vocabulary {Butt, Round, Square}. -/
inductive CapType
  | butt
  | square
  | round
deriving DecidableEq

/-- Line join styles, from the style vocabulary {Bevel, Round, Miter}. -/
inductive JoinType
  | bevel
  | round
  | miter
deriving DecidableEq

/-- Feature type discriminator: line vs. polygon outline. -/
inductive FeatureType
  | line
  | polygon
deriving DecidableEq

/-- Style-evaluated layout parameters, immutable for one bucket build. -/
structure LayoutParams where
  width : ℚ
  cap : CapType
  join : JoinType
  miterLimit : ℚ
  roundLimit : ℚ

/-- Modelled from the spec: the first filtering pass of `addGeometry`
(absent `line_bucket.cpp`) removes consecutive duplicate coordinates from
the point list. -/
def dedupConsec : List Coord → List Coord
  | [] => []
  | [p] => [p]
  | p :: q :: rest => if p = q then dedupConsec (q :: rest) else p :: dedupConsec (q :: rest)

/-- Exact decision of the real comparison `Real.sqrt n * A > B` by sign
analysis and squaring; used to decide the miter-overflow test over the
integer grid without floating point. -/
def sqrtMulGT (n : ℕ) (A B : ℚ) : Bool :=
  if 0 < A then decide (B < 0) || decide (B ^ 2 < (n : ℚ) * A ^ 2)
  else if A = 0 then decide (B < 0)
  else decide (B < 0) && decide ((n : ℚ) * A ^ 2 < B ^ 2)

/-- Modelled from the spec: the miter-overflow test of the absent
`line_bucket.cpp`.  With unit normals of the incoming and outgoing
sub-segment directions `d1, d2`, the miter extension at half-width `w/2`
is `(w/2) / cos(halfAngle)`, and the spec downgrades to Bevel when it
exceeds `width * miterLimit`.  For `w > 0` this is equivalent (by
`cos(halfAngle)^2 = (1 + cos θ)/2` and `cos θ = dot/(L1*L2)`) to
`L1*L2*(1 - 2*m^2) > 2*m^2*dot` where `L1*L2 = sqrt(sqNorm d1 * sqNorm d2)`,
which `sqrtMulGT` decides exactly. -/
def miterExceeds (d1 d2 : Coord) (m : ℚ) : Bool :=
  sqrtMulGT (sqNorm d1 * sqNorm d2).toNat (1 - 2 * m ^ 2) (2 * m ^ 2 * ((dotZ d1 d2 : ℤ) : ℚ))

/-- The kind of geometry actually emitted at an interior vertex. -/
inductive JoinKind
  | collinear
  | miter
  | bevel
  | round
deriving DecidableEq

/-- The join kind that nominally corresponds to a configured join type. -/
def kindOfJoin : JoinType → JoinKind
  | .bevel => .bevel
  | .round => .round
  | .miter => .miter

/-- Modelled from the spec: the per-vertex join dispatch of the absent
`line_bucket.cpp`.  A negligible (collinear, same-sense) turn emits no
extra geometry; otherwise the configured join type decides, with Miter
downgraded to Bevel when the miter length exceeds the limit. -/
def joinDispatch (j : JoinType) (d1 d2 : Coord) (m : ℚ) : JoinKind :=
  if crossZ d1 d2 = 0 ∧ 0 < dotZ d1 d2 then .collinear
  else
    match j with
    | .bevel => .bevel
    | .round => .round
    | .miter => if miterExceeds d1 d2 m then .bevel else .miter

/-- Dot product over exact rational vectors. -/
def dotQ (a b : ℚ × ℚ) : ℚ := a.1 * b.1 + a.2 * b.2

/-- Squared norm over exact rational vectors. -/
def sqNormQ (a : ℚ × ℚ) : ℚ := a.1 ^ 2 + a.2 ^ 2

/-- Modelled from the spec: the miter normal computed by the absent
`line_bucket.cpp` from the two unit sub-segment normals `n1, n2`, in the
standard implementation form `(n1 + n2) / (1 + n1·n2)`.  For unit normals
this equals the bisector `(n1+n2)/|n1+n2|` scaled by
`1/cos(halfAngle) = 2/|n1+n2|`, i.e. `(2/|n1+n2|^2) * (n1+n2)`, which is
what the specification states; the equivalence is proved below. -/
def miterNormalQ (n1 n2 : ℚ × ℚ) : ℚ × ℚ :=
  ((n1.1 + n2.1) / (1 + dotQ n1 n2), (n1.2 + n2.2) / (1 + dotQ n1 n2))

/-- Modelled from the spec: the number of pie slices of a Round join fan.
The spec leaves the exact count formula open (any monotone, bounded
scheme); this model uses a coarse turn-angle proxy: 3 slices for turns of
at least a right angle, 1 otherwise.  Bounded by 3. -/
def fanCount (d1 d2 : Coord) (_rl : ℚ) : ℕ :=
  if dotZ d1 d2 ≤ 0 then 3 else 1

/-- Symbolic extrusion direction stored in a vertex: the `±` unit
perpendicular of a sub-segment direction, the symbolic miter of two
directions, the bevel corner point (zero extrusion), a pie-slice
interpolant, or a square-cap extension. -/
inductive ExtrKind
  | perp (d : Coord) (left : Bool)
  | miterN (d1 d2 : Coord) (left : Bool)
  | corner
  | pie (d1 d2 : Coord) (k : ℕ)
  | capEnd (d : Coord) (left : Bool)
deriving DecidableEq

/-- A packed line vertex: position, symbolic extrusion, round flag, and
the formal `linesofar` record (the list of sub-segments traversed from
the start of the current Line to this vertex). -/
structure Vertex where
  pos : Coord
  extr : ExtrKind
  roundFlag : Bool
  travelled : List (Coord × Coord)
deriving DecidableEq

/-- Observable trace of the join/cap synthesizer's decisions. -/
inductive TraceEvent
  | join (p : Coord) (style : JoinType) (kind : JoinKind)
  | cap (p : Coord) (style : CapType)
deriving DecidableEq

/-- A GPU-addressable segment descriptor: contiguous vertex and index
sub-ranges of the accumulated buffers. -/
structure Segment where
  vertexOffset : ℕ
  vertexLength : ℕ
  indexOffset : ℕ
  indexLength : ℕ
deriving DecidableEq

/-- The 16-bit vertex ceiling of one segment: a `uint16_t` index addresses
65536 distinct vertices. -/
def maxSegmentVertices : ℕ := 65536

/-- A stored triangle.  The program stores only the three 16-bit
segment-relative indices (`relA/relB/relC`, the `uint16_t` fields of
`TriangleElement`); the model additionally records the absolute vertex
indices and the owning segment's vertex base at the time of the push
(`absA/absB/absC/base`) in order to state the no-truncation invariant. -/
structure Tri where
  absA : ℕ
  absB : ℕ
  absC : ℕ
  base : ℕ
  relA : ℕ
  relB : ℕ
  relC : ℕ
deriving DecidableEq

/-- The 16-bit truncating conversion from an absolute vertex index to a
segment-relative index, as performed by storing into `uint16_t`. -/
def relOf (a base : ℕ) : ℕ := (a - base) % maxSegmentVertices

/-- Build a stored triangle from three absolute indices and the owning
segment's vertex base. -/
def mkTri (a b c base : ℕ) : Tri :=
  ⟨a, b, c, base, relOf a base, relOf b base, relOf c base⟩

/-- Reference used by an emission event's triangles: one of the two
vertices of the active extrusion pair (the `e1/e2` bookkeeping of
`addCurrentVertex`), or the `i`-th vertex freshly emitted by the event. -/
inductive Ref
  | prevA
  | prevB
  | fresh (i : ℕ)
deriving DecidableEq

/-- A vertex specification inside an emission event (position, symbolic
extrusion, round flag); the `travelled` record is supplied uniformly by
the event. -/
structure VSpec where
  pos : Coord
  extr : ExtrKind
  roundFlag : Bool
deriving DecidableEq

/-- One bounded emission event of the join/cap synthesizer: some fresh
vertices sharing one `travelled` record, triangles referencing the active
pair and the fresh vertices, an optional update of the active pair (by
indices into the fresh vertices), and trace log entries. -/
structure Event where
  trav : List (Coord × Coord)
  verts : List VSpec
  tris : List (Ref × Ref × Ref)
  pairSet : Option (ℕ × ℕ)
  logs : List TraceEvent

/-- The active extrusion pair: absolute indices and data of the two most
recently emitted pair vertices (the `e1/e2` members of the source). -/
structure PairInfo where
  i1 : ℕ
  v1 : Vertex
  i2 : ℕ
  v2 : Vertex
deriving DecidableEq

/-- The line bucket accumulator state: flat vertex and triangle buffers,
the closed segment descriptors plus the currently open one, the active
extrusion pair, and the observable trace log. -/
structure LineBucket where
  vertices : List Vertex
  triangles : List Tri
  closedSegs : List Segment
  curSeg : Option Segment
  curPair : Option PairInfo
  log : List TraceEvent
deriving DecidableEq

/-- The empty bucket. -/
def LineBucket.empty : LineBucket := ⟨[], [], [], none, none, []⟩

/-- The ordered list of all segment descriptors (closed ones followed by
the open one), as the renderer would see them. -/
def LineBucket.segments (b : LineBucket) : List Segment :=
  b.closedSegs ++ b.curSeg.toList

/-- Modelled from the spec: `ensureSegment` of the absent
`line_bucket.cpp` (spec section 4.2) — if no segment is open, or if the
active segment's vertex count plus the expected addition would exceed the
65536-vertex ceiling, a new Segment is opened whose local vertex base is
the accumulator's current absolute vertex count.  Returns the updated
bucket and whether a new segment was opened. -/
def ensureSegment (b : LineBucket) (n : ℕ) : LineBucket × Bool :=
  match b.curSeg with
  | none =>
    ({ b with curSeg := some ⟨b.vertices.length, 0, 3 * b.triangles.length, 0⟩ }, true)
  | some c =>
    if maxSegmentVertices < c.vertexLength + n then
      ({ b with closedSegs := b.closedSegs ++ [c],
                curSeg := some ⟨b.vertices.length, 0, 3 * b.triangles.length, 0⟩ }, true)
    else (b, false)

/-- Modelled from the spec: when a new segment is opened mid-line, the
active extrusion pair is re-emitted at the start of the new segment so
that any join completes within one segment and no triangle refers across
a segment boundary (spec section 4.2: the synthesizer completes any join
within the currently open segment, and segment overflow never drops
data). -/
def reEmitPair (b : LineBucket) : LineBucket :=
  match b.curPair with
  | none => b
  | some pi =>
    { b with vertices := b.vertices ++ [pi.v1, pi.v2],
             curSeg := b.curSeg.map (fun c => { c with vertexLength := c.vertexLength + 2 }),
             curPair := some ⟨b.vertices.length, pi.v1, b.vertices.length + 1, pi.v2⟩ }

/-- Append fresh vertices to the buffer and grow the open segment. -/
def appendVerts (b : LineBucket) (vs : List Vertex) : LineBucket :=
  { b with vertices := b.vertices ++ vs,
           curSeg := b.curSeg.map (fun c => { c with vertexLength := c.vertexLength + vs.length }) }

/-- Resolve an event-local triangle reference to an absolute vertex
index; `base` is the absolute index of the event's first fresh vertex and
`n` the number of fresh vertices.  Mirrors the `e1 >= 0 && e2 >= 0` guard
of `addCurrentVertex`: a reference to a missing pair resolves to nothing
and the triangle is skipped. -/
def resolveRef (pr : Option PairInfo) (base n : ℕ) : Ref → Option ℕ
  | .prevA => pr.map (·.i1)
  | .prevB => pr.map (·.i2)
  | .fresh i => if i < n then some (base + i) else none

/-- Append the event's triangles, stored with 16-bit indices relative to
the open segment's vertex base, and grow the open segment's index
range. -/
def appendTris (b : LineBucket) (base n : ℕ) (trs : List (Ref × Ref × Ref)) : LineBucket :=
  let segBase := (b.curSeg.map Segment.vertexOffset).getD 0
  let newTris := trs.filterMap (fun r =>
    match resolveRef b.curPair base n r.1, resolveRef b.curPair base n r.2.1,
          resolveRef b.curPair base n r.2.2 with
    | some a, some b2, some c => some (mkTri a b2 c segBase)
    | _, _, _ => none)
  { b with triangles := b.triangles ++ newTris,
           curSeg := b.curSeg.map (fun c => { c with indexLength := c.indexLength + 3 * newTris.length }) }

/-- Update the active pair from the event's fresh vertices. -/
def setPair (b : LineBucket) (base : ℕ) (vs : List Vertex) : Option (ℕ × ℕ) → LineBucket
  | none => b
  | some (i, j) =>
    match vs.get? i, vs.get? j with
    | some v1, some v2 => { b with curPair := some ⟨base + i, v1, base + j, v2⟩ }
    | _, _ => b

/-- Materialise a vertex from an event vertex specification. -/
def mkVertex (t : List (Coord × Coord)) (s : VSpec) : Vertex :=
  ⟨s.pos, s.extr, s.roundFlag, t⟩

/-- Modelled from the spec: apply one bounded emission event of the
join/cap synthesizer to the accumulator — ensure an open segment with
room, re-emit the active pair if a fresh segment was opened, append the
fresh vertices and the (segment-relatively indexed) triangles, update the
active pair, and record the trace. -/
def emitEvent (b : LineBucket) (ev : Event) : LineBucket :=
  if ev.verts = [] ∧ ev.tris = [] then
    { b with log := b.log ++ ev.logs }
  else
    let n := ev.verts.length
    let p := ensureSegment b n
    let b1 := if p.2 then reEmitPair p.1 else p.1
    let base := b1.vertices.length
    let vs := ev.verts.map (mkVertex ev.trav)
    let b2 := appendVerts b1 vs
    let b3 := appendTris b2 base n ev.tris
    let b4 := setPair b3 base vs ev.pairSet
    { b4 with log := b4.log ++ ev.logs }

/-- Apply a list of emission events in order. -/
def applyEvents (b : LineBucket) (evs : List Event) : LineBucket :=
  evs.foldl emitEvent b

/-- A pure trace entry as an event. -/
def logEv (e : TraceEvent) : Event := ⟨[], [], [], none, [e]⟩

/-- Start the extrusion pair at a line's first point: two vertices
extruded along the `±` perpendicular of the outgoing direction, no
triangles. -/
def startPairEv (p d : Coord) (t : List (Coord × Coord)) : Event :=
  ⟨t, [⟨p, .perp d true, false⟩, ⟨p, .perp d false, false⟩], [], some (0, 1), []⟩

/-- Modelled from the spec: `addCurrentVertex` of the absent
`line_bucket.cpp` — emit the two extrusion vertices at the current point
and close the quad back to the previous pair with two triangles
(spec section 4.1 step 4). -/
def addCurrentVertexEv (p : Coord) (mk : Bool → ExtrKind) (t : List (Coord × Coord)) : Event :=
  ⟨t, [⟨p, mk true, false⟩, ⟨p, mk false, false⟩],
    [(.prevA, .prevB, .fresh 0), (.prevB, .fresh 0, .fresh 1)], some (0, 1), []⟩

/-- Modelled from the spec: a Bevel join — one corner vertex filling the
wedge with one extra triangle, then the fresh pair along the outgoing
perpendicular (spec section 4.1 step 2, Bevel). -/
def bevelJoinEv (p d2 : Coord) (t : List (Coord × Coord)) : Event :=
  ⟨t, [⟨p, .corner, false⟩, ⟨p, .perp d2 true, false⟩, ⟨p, .perp d2 false, false⟩],
    [(.prevA, .prevB, .fresh 0)], some (1, 2), []⟩

/-- Modelled from the spec: the wedge-filling corner triangle of a Bevel
join at a ring's wrap-around vertex (no fresh pair: the ring closes). -/
def bevelCornerEv (p : Coord) (t : List (Coord × Coord)) : Event :=
  ⟨t, [⟨p, .corner, false⟩], [(.prevA, .prevB, .fresh 0)], none, []⟩

/-- The triangle fan of `k` pie slices. -/
def pieTris (k : ℕ) : List (Ref × Ref × Ref) :=
  (List.range k).map (fun i =>
    if i = 0 then (.prevA, .prevB, .fresh 0) else (.prevB, .fresh (i - 1), .fresh i))

/-- Modelled from the spec: `addPieSliceVertex` of the absent
`line_bucket.cpp`, iterated into a fan — repeatedly insert a pie-slice
vertex/triangle approximating the arc between the two normals
(spec section 4.1 step 2, Round). -/
def addPieSliceFanEv (p d1 d2 : Coord) (rl : ℚ) (t : List (Coord × Coord)) : Event :=
  ⟨t, (List.range (fanCount d1 d2 rl)).map (fun i => ⟨p, .pie d1 d2 i, true⟩),
    pieTris (fanCount d1 d2 rl), none, []⟩

/-- Modelled from the spec: a Square cap — extend the endpoint by half
the width along the tangent, via two additional triangles
(spec section 4.1 step 3). -/
def squareCapEv (p d : Coord) (t : List (Coord × Coord)) : Event :=
  ⟨t, [⟨p, .capEnd d true, false⟩, ⟨p, .capEnd d false, false⟩],
    [(.prevA, .prevB, .fresh 0), (.prevB, .fresh 0, .fresh 1)], none, []⟩

/-- Modelled from the spec: a Round cap — a semicircular fan of pie
slices centred on the endpoint (spec section 4.1 step 3). -/
def roundCapEv (p d : Coord) (t : List (Coord × Coord)) : Event :=
  ⟨t, [⟨p, .pie d d 0, true⟩, ⟨p, .pie d d 1, true⟩, ⟨p, .pie d d 2, true⟩],
    pieTris 3, none, []⟩

/-- The cap geometry events for one endpoint (Butt: none). -/
def capGeomEvs (cap : CapType) (p d : Coord) (t : List (Coord × Coord)) : List Event :=
  match cap with
  | .butt => []
  | .square => [squareCapEv p d t]
  | .round => [roundCapEv p d t]

/-- Modelled from the spec: the events of one interior join — log the
dispatch decision, close the incoming quad, and emit the join geometry of
the dispatched kind (spec section 4.1 step 2). -/
def joinEvs (pm : LayoutParams) (p d1 d2 : Coord) (t : List (Coord × Coord)) : List Event :=
  let kind := joinDispatch pm.join d1 d2 pm.miterLimit
  logEv (.join p pm.join kind) ::
    match kind with
    | .collinear => [addCurrentVertexEv p (ExtrKind.perp d1) t]
    | .miter => [addCurrentVertexEv p (ExtrKind.miterN d1 d2) t]
    | .bevel => [addCurrentVertexEv p (ExtrKind.perp d1) t, bevelJoinEv p d2 t]
    | .round => [addCurrentVertexEv p (ExtrKind.perp d1) t,
                 addPieSliceFanEv p d1 d2 pm.roundLimit t, startPairEv p d2 t]

/-- Modelled from the spec: the wrap-around join of a closed ring at the
shared first/last point — log the dispatch decision and emit the extra
join geometry of the dispatched kind (spec sections 4.1 step 2 and 8). -/
def wrapJoinEvs (pm : LayoutParams) (p dLast dFirst : Coord) (t : List (Coord × Coord)) : List Event :=
  let kind := joinDispatch pm.join dLast dFirst pm.miterLimit
  logEv (.join p pm.join kind) ::
    match kind with
    | .collinear => []
    | .miter => []
    | .bevel => [bevelCornerEv p t]
    | .round => [addPieSliceFanEv p dLast dFirst pm.roundLimit t]

/-- What to emit when the walk reaches the last point: caps (open line)
or the ring wrap-around join. -/
inductive TailSpec
  | openCaps
  | ringWrap (dFirst : Coord)

/-- Modelled from the spec: the walk of the join/cap synthesizer along
the (deduplicated) point sequence, carrying the formal `linesofar`
record; at each interior point it dispatches a join, and at the final
point it closes the last quad and emits the tail (caps or ring wrap
join). -/
def walkEvents (pm : LayoutParams) (tail : TailSpec) :
    List (Coord × Coord) → Coord → Coord → List Coord → List Event
  | t, prev, cur, [] =>
    let d := dirOf prev cur
    let t2 := t ++ [(prev, cur)]
    addCurrentVertexEv cur (ExtrKind.perp d) t2 ::
      (match tail with
       | .openCaps => capGeomEvs pm.cap cur d t2 ++ [logEv (.cap cur pm.cap)]
       | .ringWrap dFirst => wrapJoinEvs pm cur d dFirst t2)
  | t, prev, cur, next :: rest =>
    let t2 := t ++ [(prev, cur)]
    joinEvs pm cur (dirOf prev cur) (dirOf cur next) t2 ++ walkEvents pm tail t2 cur next rest

/-- Modelled from the spec: the full event list for one (deduplicated)
Line.  A Line is a closed ring when it has more than 2 points and its
first point equals its last; rings get a wrap-around join and no caps,
open lines get caps at both endpoints. -/
def eventsForLine (pm : LayoutParams) (ps : List Coord) : List Event :=
  match ps with
  | p0 :: p1 :: rest =>
    let d0 := dirOf p0 p1
    if rest.getLast? = some p0 then
      startPairEv p0 d0 [] :: walkEvents pm (.ringWrap d0) [] p0 p1 rest
    else
      logEv (.cap p0 pm.cap) :: startPairEv p0 d0 [] ::
        (capGeomEvs pm.cap p0 d0 [] ++ walkEvents pm .openCaps [] p0 p1 rest)
  | _ => []

/-- Modelled from the spec: `addGeometry` of the absent
`line_bucket.cpp` — remove consecutive duplicate coordinates, skip the
Line entirely if fewer than 2 points remain (degenerate geometry is
silently dropped), otherwise reset the active pair and tessellate the
Line.  The `FeatureType` discriminator is carried for interface fidelity;
closedness is decided geometrically (first point equals last point), as
in the spec's data model. -/
def addGeometry (pm : LayoutParams) (_ft : FeatureType) (b : LineBucket)
    (line : List Coord) : LineBucket :=
  let ps := dedupConsec line
  if ps.length < 2 then b
  else applyEvents { b with curPair := none } (eventsForLine pm ps)

/-- A decoded tile feature: a type tag and its lines/rings. -/
structure Feature where
  ftype : FeatureType
  lines : List (List Coord)

/-- Modelled from the spec: `addFeature` — tessellate each ring/line of
the feature in order. -/
def addFeature (pm : LayoutParams) (b : LineBucket) (f : Feature) : LineBucket :=
  f.lines.foldl (fun s l => addGeometry pm f.ftype s l) b

/-- Build a bucket from a sequence of `addFeature` calls on the empty
bucket. -/
def buildBucket (pm : LayoutParams) (fs : List Feature) : LineBucket :=
  fs.foldl (addFeature pm) LineBucket.empty

/-- The style-evaluated scalars of a render layer needed by hit-testing,
at the bucket's build zoom. -/
structure RenderLineLayer where
  width : ℚ
  blur : ℚ

/-- Modelled from the spec: `getLineWidth` — the layer's line width
evaluated at the bucket's build zoom (evaluation itself is the excluded
style collaborator; the evaluated scalar is the structure field). -/
def getLineWidth (l : RenderLineLayer) : ℚ := l.width

/-- Modelled from the spec: `getQueryRadius` — half the evaluated line
width plus the blur radius; independent of the geometry accumulated in
the bucket. -/
def getQueryRadius (_b : LineBucket) (l : RenderLineLayer) : ℚ :=
  getLineWidth l / 2 + l.blur

/-- List prefix relation used for the formal `linesofar` records. -/
def pfx (a b : List (Coord × Coord)) : Prop := ∃ r, b = a ++ r

/-- The numeric `linesofar` value of a formal record under a chosen
length function. -/
def travelledValue (len : Coord → Coord → ℚ) (t : List (Coord × Coord)) : ℚ :=
  (t.map (fun s => len s.1 s.2)).sum

/-- Contiguity of a segment descriptor list: starting from vertex offset
`v` and index offset `i`, the descriptors tile the buffers back-to-back
and end exactly at totals `V` and `I`. -/
def chainFrom : ℕ → ℕ → List Segment → ℕ → ℕ → Prop
  | v, i, [], V, I => v = V ∧ i = I
  | v, i, s :: rest, V, I =>
    s.vertexOffset = v ∧ s.indexOffset = i ∧
      chainFrom (v + s.vertexLength) (i + s.indexLength) rest V I

/-- An absolute vertex index lies in the vertex range of a segment. -/
def inSeg (s : Segment) (a : ℕ) : Prop :=
  s.vertexOffset ≤ a ∧ a < s.vertexOffset + s.vertexLength

/-- The accumulator invariant: the segments tile the vertex and index
buffers contiguously; no segment exceeds the 16-bit vertex ceiling; the
active pair lies in the open segment; and every stored triangle's
absolute indices lie in the vertex range of the segment whose base it was
stored against, with the 16-bit relative fields computed from them. -/
structure Inv (b : LineBucket) : Prop where
  chain : chainFrom 0 0 b.segments b.vertices.length (3 * b.triangles.length)
  bound : ∀ s ∈ b.segments, s.vertexLength ≤ maxSegmentVertices
  pairIn : ∀ pi, b.curPair = some pi → ∃ c, b.curSeg = some c ∧ inSeg c pi.i1 ∧ inSeg c pi.i2
  triOk : ∀ t ∈ b.triangles, ∃ s ∈ b.segments, t.base = s.vertexOffset ∧
    inSeg s t.absA ∧ inSeg s t.absB ∧ inSeg s t.absC ∧
    t.relA = relOf t.absA t.base ∧ t.relB = relOf t.absB t.base ∧ t.relC = relOf t.absC t.base

/-- The `travelled` record of the last vertex of a list, if any. -/
def lastTrav (l : List Vertex) : Option (List (Coord × Coord)) :=
  l.getLast?.map Vertex.travelled

/-- The `travelled` floor after an event: unchanged by vertex-free
events, otherwise the event's record. -/
def nextLast (last : Option (List (Coord × Coord))) (ev : Event) :
    Option (List (Coord × Coord)) :=
  if ev.verts = [] then last else some ev.trav

/-- Well-formedness of one event with respect to the current `travelled`
floor: a vertex-free event is a pure log; an event with vertices has
in-bounds pair updates and a record extending the floor (equal to it if
the event does not reset the pair). -/
def EvOK (last : Option (List (Coord × Coord))) (ev : Event) : Prop :=
  (ev.verts = [] ∧ ev.tris = [] ∧ ev.pairSet = none)
  ∨ (ev.verts ≠ [] ∧
     (∀ i j, ev.pairSet = some (i, j) → i < ev.verts.length ∧ j < ev.verts.length) ∧
     (match last with
      | none => ev.trav = [] ∧ ev.pairSet.isSome = true
      | some t => pfx t ev.trav ∧ (ev.pairSet = none → ev.trav = t)))

/-- Well-formedness of an event list, threading the `travelled` floor. -/
def EventsOK : Option (List (Coord × Coord)) → List Event → Prop
  | _, [] => True
  | last, ev :: rest => EvOK last ev ∧ EventsOK (nextLast last ev) rest

/-- Consecutive vertices have prefix-related `travelled` records. -/
def travChain (l : List Vertex) : Prop :=
  List.Chain' (fun a b => pfx a.travelled b.travelled) l

/-- The per-line emission invariant over the block of vertices appended
since position `n`: the block's records grow by prefix, the last record
is the current floor, the active pair carries the floor's record, and the
block's first vertex has the empty record. -/
structure BlockInv (n : ℕ) (b : LineBucket) (last : Option (List (Coord × Coord))) : Prop where
  nle : n ≤ b.vertices.length
  mono : travChain (b.vertices.drop n)
  lastEq : lastTrav (b.vertices.drop n) = last
  pairT : ∀ pi, b.curPair = some pi → ∃ t, last = some t ∧ pi.v1.travelled = t ∧ pi.v2.travelled = t
  headT : ∀ v, (b.vertices.drop n).head? = some v → v.travelled = []

/-- The last two elements of a list, if it has at least two. -/
def lastTwo : List Coord → Option (Coord × Coord)
  | [] => none
  | [_] => none
  | [a, b] => some (a, b)
  | _ :: b :: c :: rest => lastTwo (b :: c :: rest)

/-- The Euclidean norm of the `±(w/2)`-scaled unit perpendicular of the
direction `d` equals `w/2` (stated for the `left` side; the `right` side
negates both components, leaving the norm unchanged). -/
def extrusionNormEq (w : ℚ) (d : Coord) : Prop :=
  Real.sqrt (((w : ℝ) / 2 * ((d.2 : ℝ) / Real.sqrt ((d.1 : ℝ) ^ 2 + (d.2 : ℝ) ^ 2))) ^ 2 +
      ((w : ℝ) / 2 * ((d.1 : ℝ) / Real.sqrt ((d.1 : ℝ) ^ 2 + (d.2 : ℝ) ^ 2))) ^ 2) = (w : ℝ) / 2

end LineTess

namespace LineTess

theorem pfx_refl (t : List (Coord × Coord)) : pfx t t := ⟨[], by simp⟩

theorem pfx_trans {a b c : List (Coord × Coord)} (h1 : pfx a b) (h2 : pfx b c) : pfx a c := by
  obtain ⟨r1, rfl⟩ := h1
  obtain ⟨r2, rfl⟩ := h2
  exact ⟨r1 ++ r2, by simp⟩

theorem pfx_append (t r : List (Coord × Coord)) : pfx t (t ++ r) := ⟨r, rfl⟩

theorem travelledValue_nil (len : Coord → Coord → ℚ) : travelledValue len [] = 0 := rfl

theorem travelledValue_nonneg (len : Coord → Coord → ℚ) (hlen : ∀ p q, 0 ≤ len p q)
    (t : List (Coord × Coord)) : 0 ≤ travelledValue len t := by
  unfold travelledValue
  induction t with
  | nil => simp
  | cons s t ih =>
    simp only [List.map_cons, List.sum_cons]
    exact add_nonneg (hlen s.1 s.2) ih

theorem travelledValue_mono (len : Coord → Coord → ℚ) (hlen : ∀ p q, 0 ≤ len p q)
    {a b : List (Coord × Coord)} (h : pfx a b) :
    travelledValue len a ≤ travelledValue len b := by
  obtain ⟨r, rfl⟩ := h
  unfold travelledValue
  rw [List.map_append, List.sum_append]
  have := travelledValue_nonneg len hlen r
  unfold travelledValue at this
  linarith

theorem dedup_dup (p : Coord) : ∀ (l1 l2 : List Coord),
    dedupConsec (l1 ++ p :: p :: l2) = dedupConsec (l1 ++ p :: l2) := by
  intro l1
  induction l1 with
  | nil =>
    intro l2
    simp [dedupConsec]
  | cons a l1 ih =>
    intro l2
    cases l1 with
    | nil =>
      have h0 := ih l2
      simp only [List.nil_append] at h0
      simp [dedupConsec, h0]
    | cons b l1 =>
      have h0 := ih l2
      simp only [List.cons_append] at h0 ⊢
      simp [dedupConsec, h0]

/-- C8: `getQueryRadius(layer)` returns exactly `halfWidth + blurRadius`, where
`halfWidth` is half the layer's evaluated line width (`getLineWidth layer / 2`),
and it does not depend on the geometry accumulated in the bucket. -/
theorem c8_query_radius (b b2 : LineBucket) (l : RenderLineLayer) :
    getQueryRadius b l = getLineWidth l / 2 + l.blur ∧
    getQueryRadius b l = getQueryRadius b2 l :=
  ⟨rfl, rfl⟩

/-- C5: a Line with fewer than 2 distinct points after removing consecutive
duplicate coordinates is silently dropped: `addGeometry` leaves the bucket
(vertex, triangle, and segment accumulators, active pair, and trace) exactly
as it was, and there is no error channel. -/
theorem c5_degenerate_skip (pm : LayoutParams) (ft : FeatureType) (b : LineBucket)
    (line : List Coord) (h : (dedupConsec line).length < 2) :
    addGeometry pm ft b line = b := by
  unfold addGeometry
  rw [if_pos h]

/-- Witness for C5 at the concrete degenerate line [(1,1),(1,1)]. -/
theorem c5_witness :
    (dedupConsec [((1,1) : Coord), (1,1)]).length < 2 ∧
    addGeometry ⟨2, .butt, .bevel, 2, 1⟩ .line LineBucket.empty [((1,1) : Coord), (1,1)] =
      LineBucket.empty :=
  ⟨by decide, c5_degenerate_skip _ _ _ _ (by decide)⟩

/-- C4: consecutive duplicate coordinates never change the output of
`addGeometry`; in particular tessellating [(0,0),(0,0),(5,5)] produces a
bucket state identical to tessellating [(0,0),(5,5)] under the same style
parameters. -/
theorem c4_duplicate_idempotent :
    (∀ (pm : LayoutParams) (ft : FeatureType) (b : LineBucket) (l1 l2 : List Coord) (p : Coord),
       addGeometry pm ft b (l1 ++ p :: p :: l2) = addGeometry pm ft b (l1 ++ p :: l2)) ∧
    ∀ (pm : LayoutParams) (ft : FeatureType) (b : LineBucket),
       addGeometry pm ft b [(0,0),(0,0),(5,5)] = addGeometry pm ft b [(0,0),(5,5)] := by
  constructor
  · intro pm ft b l1 l2 p
    unfold addGeometry
    rw [dedup_dup]
  · intro pm ft b
    exact
      (by
        unfold addGeometry
        rw [dedup_dup] :
        addGeometry pm ft b ([] ++ (0,0) :: (0,0) :: [(5,5)]) =
          addGeometry pm ft b ([] ++ (0,0) :: [(5,5)]))

/-- C9: tessellating the open line [(0,0),(10,0),(10,10)] with width 2,
join Bevel, cap Butt produces exactly 5 triangles (two quads plus one
corner-fill triangle at the 90-degree turn) and 9 pairwise distinct
vertices. -/
theorem c9_scenario :
    (addGeometry ⟨2, .butt, .bevel, 2, 1⟩ .line LineBucket.empty
        [(0,0),(10,0),(10,10)]).triangles.length = 5 ∧
    (addGeometry ⟨2, .butt, .bevel, 2, 1⟩ .line LineBucket.empty
        [(0,0),(10,0),(10,10)]).vertices.length = 9 ∧
    (addGeometry ⟨2, .butt, .bevel, 2, 1⟩ .line LineBucket.empty
        [(0,0),(10,0),(10,10)]).vertices.Nodup := by
  decide

end LineTess

namespace LineTess

theorem sqNormQ_eq_zero {s : ℚ × ℚ} : sqNormQ s = 0 ↔ s = 0 := by
  constructor
  · intro h
    unfold sqNormQ at h
    have h1 : s.1 ^ 2 = 0 ∧ s.2 ^ 2 = 0 :=
      (add_eq_zero_iff_of_nonneg (sq_nonneg _) (sq_nonneg _)).mp h
    have e1 : s.1 = 0 := by
      have := h1.1
      nlinarith [sq_nonneg s.1]
    have e2 : s.2 = 0 := by
      have := h1.2
      nlinarith [sq_nonneg s.2]
    exact Prod.ext e1 e2
  · intro h
    subst h
    show (0 : ℚ) ^ 2 + (0 : ℚ) ^ 2 = 0
    norm_num

/-- C6: the miter normal is the bisector of the two unit sub-segment normals
scaled by `1/cos(halfAngle)` — for unit normals the bisector is
`(n1+n2)/|n1+n2|` and `cos(halfAngle) = |n1+n2|/2`, so the scaled bisector is
exactly `(2/|n1+n2|^2) * (n1+n2)`, which the kernel `miterNormalQ` computes;
and whenever the miter length exceeds the limit at an actual turn, the join
dispatch used by `addGeometry` emits a Bevel join instead of a Miter join
(totality of `joinDispatch` means no error is raised). -/
theorem c6_miter_join :
    (∀ n1 n2 : ℚ × ℚ, sqNormQ n1 = 1 → sqNormQ n2 = 1 → n1 + n2 ≠ 0 →
      miterNormalQ n1 n2 = ((2 / sqNormQ (n1 + n2)) * (n1.1 + n2.1),
                            (2 / sqNormQ (n1 + n2)) * (n1.2 + n2.2))) ∧
    ∀ (d1 d2 : Coord) (m : ℚ), crossZ d1 d2 ≠ 0 → miterExceeds d1 d2 m = true →
      joinDispatch JoinType.miter d1 d2 m = JoinKind.bevel := by
  constructor
  · intro n1 n2 h1 h2 hs
    have hadd1 : (n1 + n2).1 = n1.1 + n2.1 := rfl
    have hadd2 : (n1 + n2).2 = n1.2 + n2.2 := rfl
    have hdot : sqNormQ (n1 + n2) = 2 + 2 * dotQ n1 n2 := by
      unfold sqNormQ dotQ
      rw [hadd1, hadd2]
      unfold sqNormQ at h1 h2
      linear_combination h1 + h2
    have hne : (1 : ℚ) + dotQ n1 n2 ≠ 0 := by
      intro h0
      apply hs
      apply sqNormQ_eq_zero.mp
      rw [hdot]
      linarith
    unfold miterNormalQ
    rw [hdot]
    have hne2 : (2 : ℚ) + 2 * dotQ n1 n2 ≠ 0 := by
      intro h0
      exact hne (by linarith)
    refine Prod.ext ?_ ?_
    · show (n1.1 + n2.1) / (1 + dotQ n1 n2) = 2 / (2 + 2 * dotQ n1 n2) * (n1.1 + n2.1)
      field_simp
      ring
    · show (n1.2 + n2.2) / (1 + dotQ n1 n2) = 2 / (2 + 2 * dotQ n1 n2) * (n1.2 + n2.2)
      field_simp
      ring
  · intro d1 d2 m hcross hex
    unfold joinDispatch
    rw [if_neg (fun h => hcross h.1), hex]
    rfl

/-- Witness for C6 at unit normals (1,0) and (0,1) and at the perpendicular
turn with miter limit 0 (which always overflows). -/
theorem c6_witness :
    (sqNormQ ((1,0) : ℚ × ℚ) = 1 ∧ sqNormQ ((0,1) : ℚ × ℚ) = 1 ∧
      ((1,0) : ℚ × ℚ) + (0,1) ≠ 0 ∧
      miterNormalQ (1,0) (0,1) =
        ((2 / sqNormQ (((1,0) : ℚ × ℚ) + (0,1))) * (((1,0) : ℚ × ℚ).1 + ((0,1) : ℚ × ℚ).1),
         (2 / sqNormQ (((1,0) : ℚ × ℚ) + (0,1))) * (((1,0) : ℚ × ℚ).2 + ((0,1) : ℚ × ℚ).2))) ∧
    (crossZ (1,0) (0,1) ≠ 0 ∧ miterExceeds (1,0) (0,1) 0 = true ∧
      joinDispatch JoinType.miter (1,0) (0,1) 0 = JoinKind.bevel) := by
  have h1 : sqNormQ ((1,0) : ℚ × ℚ) = 1 := by norm_num [sqNormQ]
  have h2 : sqNormQ ((0,1) : ℚ × ℚ) = 1 := by norm_num [sqNormQ]
  have h3 : ((1,0) : ℚ × ℚ) + (0,1) ≠ 0 := by
    intro h
    have := congrArg Prod.fst h
    norm_num at this
  have h4 : crossZ (1,0) (0,1) ≠ 0 := by decide
  have h5 : miterExceeds (1,0) (0,1) 0 = true := by
    norm_num [miterExceeds, sqrtMulGT, sqNorm, dotZ]
  exact ⟨⟨h1, h2, h3, c6_miter_join.1 (1,0) (0,1) h1 h2 h3⟩,
         ⟨h4, h5, c6_miter_join.2 (1,0) (0,1) 0 h4 h5⟩⟩

end LineTess

namespace LineTess

theorem dirOf_components_ne (p q : Coord) (hpq : p ≠ q) :
    ¬((dirOf p q).1 = 0 ∧ (dirOf p q).2 = 0) := by
  intro h
  apply hpq
  have h1 : q.1 - p.1 = 0 := h.1
  have h2 : q.2 - p.2 = 0 := h.2
  exact Prod.ext (by linarith) (by linarith)

theorem extrusionNormEq_holds (w : ℚ) (hw : 0 ≤ w) (d : Coord)
    (hd : ¬(d.1 = 0 ∧ d.2 = 0)) : extrusionNormEq w d := by
  unfold extrusionNormEq
  have hXY : (0:ℝ) < (d.1 : ℝ) ^ 2 + (d.2 : ℝ) ^ 2 := by
    rcases not_and_or.mp hd with h | h
    · have hX : (d.1 : ℝ) ≠ 0 := Int.cast_ne_zero.mpr h
      positivity
    · have hY : (d.2 : ℝ) ≠ 0 := Int.cast_ne_zero.mpr h
      positivity
  have hs : (0:ℝ) < Real.sqrt ((d.1 : ℝ) ^ 2 + (d.2 : ℝ) ^ 2) := Real.sqrt_pos.mpr hXY
  have hsq : Real.sqrt ((d.1 : ℝ) ^ 2 + (d.2 : ℝ) ^ 2) ^ 2 = (d.1 : ℝ) ^ 2 + (d.2 : ℝ) ^ 2 :=
    Real.sq_sqrt hXY.le
  have hwR : (0:ℝ) ≤ (w : ℝ) := by exact_mod_cast hw
  have hw2 : (0:ℝ) ≤ (w : ℝ) / 2 := by linarith
  have key : ((w:ℝ)/2 * ((d.2:ℝ) / Real.sqrt ((d.1:ℝ)^2 + (d.2:ℝ)^2)))^2 +
      ((w:ℝ)/2 * ((d.1:ℝ) / Real.sqrt ((d.1:ℝ)^2 + (d.2:ℝ)^2)))^2 = ((w:ℝ)/2)^2 := by
    rw [mul_pow, mul_pow, div_pow, div_pow, hsq]
    field_simp
    ring
  rw [key, Real.sqrt_sq hw2]

/-- C3: for every open two-point line with distinct endpoints, every
configured join type, width `w >= 0`, and Butt caps, `addGeometry` emits
exactly 4 vertices and 2 triangles (one quad), every emitted vertex is
extruded along the perpendicular of the line direction, and the
`(w/2)`-scaled unit perpendicular has Euclidean norm exactly `w/2` at both
endpoints. -/
theorem c3_two_point (p q : Coord) (pm : LayoutParams) (hpq : p ≠ q)
    (hw : 0 ≤ pm.width) (hcap : pm.cap = CapType.butt) :
    (addGeometry pm .line LineBucket.empty [p, q]).vertices.length = 4 ∧
    (addGeometry pm .line LineBucket.empty [p, q]).triangles.length = 2 ∧
    (∀ v ∈ (addGeometry pm .line LineBucket.empty [p, q]).vertices,
       ∃ s, v.extr = ExtrKind.perp (dirOf p q) s) ∧
    extrusionNormEq pm.width (dirOf p q) := by
  obtain ⟨w, cap, j, ml, rl⟩ := pm
  have hcap2 : cap = CapType.butt := hcap
  subst hcap2
  have hw2 : (0:ℚ) ≤ w := hw
  have h1 : dedupConsec [p, q] = [p, q] := by simp [dedupConsec, hpq]
  have hb : addGeometry ⟨w, .butt, j, ml, rl⟩ .line LineBucket.empty [p, q] =
      ⟨[⟨p, .perp (dirOf p q) true, false, []⟩,
        ⟨p, .perp (dirOf p q) false, false, []⟩,
        ⟨q, .perp (dirOf p q) true, false, [(p, q)]⟩,
        ⟨q, .perp (dirOf p q) false, false, [(p, q)]⟩],
       [mkTri 0 1 2 0, mkTri 1 2 3 0],
       [], some ⟨0, 4, 0, 6⟩,
       some ⟨2, ⟨q, .perp (dirOf p q) true, false, [(p, q)]⟩,
             3, ⟨q, .perp (dirOf p q) false, false, [(p, q)]⟩⟩,
       [.cap p .butt, .cap q .butt]⟩ := by
    unfold addGeometry
    rw [h1]
    rfl
  refine ⟨by rw [hb]; rfl, by rw [hb]; rfl, ?_, ?_⟩
  · rw [hb]
    intro v hv
    simp only [List.mem_cons, List.not_mem_nil, or_false] at hv
    rcases hv with h | h | h | h <;> subst h
    · exact ⟨true, rfl⟩
    · exact ⟨false, rfl⟩
    · exact ⟨true, rfl⟩
    · exact ⟨false, rfl⟩
  · exact extrusionNormEq_holds w hw2 (dirOf p q) (dirOf_components_ne p q hpq)

/-- Witness for C3 at the concrete line [(0,0),(1,0)] with width 2, Bevel
join, and Butt caps. -/
theorem c3_witness :
    (((0,0) : Coord) ≠ (1,0) ∧ (0:ℚ) ≤ (2:ℚ) ∧
      (LayoutParams.mk 2 .butt .bevel 2 1).cap = CapType.butt) ∧
    ((addGeometry ⟨2, .butt, .bevel, 2, 1⟩ .line LineBucket.empty
        [((0,0) : Coord), (1,0)]).vertices.length = 4 ∧
     (addGeometry ⟨2, .butt, .bevel, 2, 1⟩ .line LineBucket.empty
        [((0,0) : Coord), (1,0)]).triangles.length = 2 ∧
     (∀ v ∈ (addGeometry ⟨2, .butt, .bevel, 2, 1⟩ .line LineBucket.empty
        [((0,0) : Coord), (1,0)]).vertices,
        ∃ s, v.extr = ExtrKind.perp (dirOf (0,0) (1,0)) s) ∧
     extrusionNormEq (2:ℚ) (dirOf (0,0) (1,0))) := by
  have hp : ((0,0) : Coord) ≠ (1,0) := by decide
  have hw : (0:ℚ) ≤ (2:ℚ) := by norm_num
  exact ⟨⟨hp, hw, rfl⟩, c3_two_point (0,0) (1,0) ⟨2, .butt, .bevel, 2, 1⟩ hp hw rfl⟩

/-- C7 counterexample: on the closed ring
[(0,0),(10,0),(10,10),(-10,10),(-10,0),(0,0)] with configured join Bevel,
the wrap-around vertex (0,0) is collinear (the incoming and outgoing
directions agree), so the join dispatch emits no join geometry of the
configured kind there: no `join (0,0) bevel bevel` trace event exists, and
the claim that the wrap-around vertex generates a join of the configured
join type is false as stated. -/
theorem c7_counterexample :
    ¬ (TraceEvent.join (0,0) JoinType.bevel (kindOfJoin JoinType.bevel) ∈
        (addGeometry ⟨2, .butt, .bevel, 2, 1⟩ .polygon LineBucket.empty
          [(0,0),(10,0),(10,10),(-10,10),(-10,0),(0,0)]).log) := by
  decide

end LineTess

namespace LineTess

theorem ensureSegment_log (b : LineBucket) (n : ℕ) : (ensureSegment b n).1.log = b.log := by
  unfold ensureSegment
  split
  · rfl
  · split <;> rfl

theorem reEmitPair_log (b : LineBucket) : (reEmitPair b).log = b.log := by
  unfold reEmitPair
  split <;> rfl

theorem appendVerts_log (b : LineBucket) (vs : List Vertex) :
    (appendVerts b vs).log = b.log := rfl

theorem appendTris_log (b : LineBucket) (base n : ℕ) (trs : List (Ref × Ref × Ref)) :
    (appendTris b base n trs).log = b.log := rfl

theorem setPair_log (b : LineBucket) (base : ℕ) (vs : List Vertex) (ps : Option (ℕ × ℕ)) :
    (setPair b base vs ps).log = b.log := by
  cases ps with
  | none => rfl
  | some ij =>
    obtain ⟨i, j⟩ := ij
    show (match vs.get? i, vs.get? j with
      | some v1, some v2 =>
        { b with curPair := some ⟨base + i, v1, base + j, v2⟩ }
      | _, _ => b).log = b.log
    cases h1 : vs.get? i <;> cases h2 : vs.get? j <;> simp

theorem emitEvent_log (b : LineBucket) (ev : Event) :
    (emitEvent b ev).log = b.log ++ ev.logs := by
  simp only [emitEvent]
  split
  · rfl
  · show (setPair _ _ _ ev.pairSet).log ++ ev.logs = b.log ++ ev.logs
    rw [setPair_log, appendTris_log, appendVerts_log]
    split
    · rw [reEmitPair_log, ensureSegment_log]
    · rw [ensureSegment_log]

theorem applyEvents_cons (b : LineBucket) (e : Event) (evs : List Event) :
    applyEvents b (e :: evs) = applyEvents (emitEvent b e) evs := rfl

theorem applyEvents_log (evs : List Event) : ∀ b : LineBucket,
    (applyEvents b evs).log = b.log ++ (evs.map Event.logs).flatten := by
  induction evs with
  | nil => intro b; simp [applyEvents]
  | cons e evs ih =>
    intro b
    rw [applyEvents_cons, ih, emitEvent_log]
    simp

theorem eventsForLine_short (pm : LayoutParams) (ps : List Coord) (h : ps.length < 2) :
    eventsForLine pm ps = [] := by
  match ps with
  | [] => rfl
  | [p] => rfl
  | p :: q :: rest => simp at h; omega

theorem addGeometry_log (pm : LayoutParams) (ft : FeatureType) (b : LineBucket)
    (line : List Coord) :
    (addGeometry pm ft b line).log =
      b.log ++ ((eventsForLine pm (dedupConsec line)).map Event.logs).flatten := by
  simp only [addGeometry]
  split
  · rename_i h
    rw [eventsForLine_short pm _ h]
    simp
  · rw [applyEvents_log]

theorem lastTwo_getLast : ∀ (l : List Coord) (a c : Coord),
    lastTwo l = some (a, c) → l.getLast? = some c
  | [], a, c => by simp [lastTwo]
  | [_], a, c => by simp [lastTwo]
  | [x, y], a, c => by
    intro h
    simp [lastTwo] at h
    simp [h.2]
  | x :: y :: z :: rest, a, c => by
    intro h
    have h2 : lastTwo (y :: z :: rest) = some (a, c) := h
    have := lastTwo_getLast (y :: z :: rest) a c h2
    simpa [List.getLast?_cons_cons] using this

theorem walk_ring_join_mem (pm : LayoutParams) (dF : Coord) :
    ∀ (rest : List Coord) (prev cur : Coord) (t : List (Coord × Coord)) (pen plast : Coord),
    lastTwo (prev :: cur :: rest) = some (pen, plast) →
    TraceEvent.join plast pm.join (joinDispatch pm.join (dirOf pen plast) dF pm.miterLimit) ∈
      ((walkEvents pm (.ringWrap dF) t prev cur rest).map Event.logs).flatten
  | [], prev, cur, t, pen, plast => by
    intro h
    simp [lastTwo] at h
    obtain ⟨rfl, rfl⟩ := h
    simp only [walkEvents, wrapJoinEvs, addCurrentVertexEv, logEv, List.map_cons, List.flatten_cons]
    simp
  | next :: rest, prev, cur, t, pen, plast => by
    intro h
    have h2 : lastTwo (cur :: next :: rest) = some (pen, plast) := h
    have ih := walk_ring_join_mem pm dF rest cur next (t ++ [(prev, cur)]) pen plast h2
    simp only [walkEvents, List.map_append, List.flatten_append]
    exact List.mem_append_right _ ih

theorem joinEvs_logs_join (pm : LayoutParams) (p d1 d2 : Coord) (t : List (Coord × Coord))
    (e : TraceEvent) (h : e ∈ ((joinEvs pm p d1 d2 t).map Event.logs).flatten) :
    ∃ q s k, e = TraceEvent.join q s k := by
  unfold joinEvs at h
  rcases hk : joinDispatch pm.join d1 d2 pm.miterLimit with _ | _ | _ | _ <;>
    rw [hk] at h <;>
    simp [logEv, addCurrentVertexEv, bevelJoinEv, addPieSliceFanEv, startPairEv] at h <;>
    exact ⟨p, pm.join, _, h⟩

theorem wrapJoinEvs_logs_join (pm : LayoutParams) (p dLast dF : Coord)
    (t : List (Coord × Coord)) (e : TraceEvent)
    (h : e ∈ ((wrapJoinEvs pm p dLast dF t).map Event.logs).flatten) :
    ∃ q s k, e = TraceEvent.join q s k := by
  unfold wrapJoinEvs at h
  rcases hk : joinDispatch pm.join dLast dF pm.miterLimit with _ | _ | _ | _ <;>
    rw [hk] at h <;>
    simp [logEv, bevelCornerEv, addPieSliceFanEv] at h <;>
    exact ⟨p, pm.join, _, h⟩

theorem walk_ring_logs_joins (pm : LayoutParams) (dF : Coord) :
    ∀ (rest : List Coord) (prev cur : Coord) (t : List (Coord × Coord)) (e : TraceEvent),
    e ∈ ((walkEvents pm (.ringWrap dF) t prev cur rest).map Event.logs).flatten →
    ∃ q s k, e = TraceEvent.join q s k
  | [], prev, cur, t, e => by
    intro h
    simp only [walkEvents, List.map_cons, List.flatten_cons, addCurrentVertexEv] at h
    simp at h
    exact wrapJoinEvs_logs_join pm cur (dirOf prev cur) dF _ e (by simpa using h)
  | next :: rest, prev, cur, t, e => by
    intro h
    simp only [walkEvents, List.map_append, List.flatten_append] at h
    rcases List.mem_append.mp h with h1 | h2
    · exact joinEvs_logs_join pm cur _ _ _ e h1
    · exact walk_ring_logs_joins pm dF rest cur next _ e h2

end LineTess

namespace LineTess

/-- C7 (amended): for every closed ring (first point equals last point, at
least 4 points after removing consecutive duplicates) and every configured
cap and join type, the wrap-around vertex generates a join event whose kind
is the join dispatch of the configured join type (the configured kind,
except that a negligible collinear turn emits no extra join geometry and a
Miter join beyond the miter limit is emitted as Bevel), and no cap event —
hence no cap triangle — is produced anywhere on the ring. -/
theorem c7_ring_amended (pm : LayoutParams) (ft : FeatureType) (b : LineBucket)
    (pts : List Coord) (p0 p1 : Coord) (rest : List Coord) (pen : Coord)
    (hps : dedupConsec pts = p0 :: p1 :: rest)
    (hlen : 2 ≤ rest.length)
    (hlast : lastTwo (dedupConsec pts) = some (pen, p0)) :
    (TraceEvent.join p0 pm.join
        (joinDispatch pm.join (dirOf pen p0) (dirOf p0 p1) pm.miterLimit) ∈
      (addGeometry pm ft b pts).log.drop b.log.length) ∧
    ∀ c k, TraceEvent.cap c k ∉ (addGeometry pm ft b pts).log.drop b.log.length := by
  rw [hps] at hlast
  have hGL0 : (p0 :: p1 :: rest).getLast? = some p0 := lastTwo_getLast _ _ _ hlast
  have hGL : rest.getLast? = some p0 := by
    cases rest with
    | nil => simp at hlen
    | cons r rs => simpa [List.getLast?_cons_cons] using hGL0
  have hlog := addGeometry_log pm ft b pts
  rw [hps] at hlog
  have hev : eventsForLine pm (p0 :: p1 :: rest) =
      startPairEv p0 (dirOf p0 p1) [] :: walkEvents pm (.ringWrap (dirOf p0 p1)) [] p0 p1 rest := by
    simp [eventsForLine, hGL]
  rw [hev] at hlog
  rw [hlog, List.drop_left]
  constructor
  · simp only [List.map_cons, List.flatten_cons, startPairEv]
    refine List.mem_append_right _ ?_
    exact walk_ring_join_mem pm (dirOf p0 p1) rest p0 p1 [] pen p0 hlast
  · intro c k hmem
    simp only [List.map_cons, List.flatten_cons, startPairEv] at hmem
    rcases List.mem_append.mp hmem with h1 | h2
    · simp at h1
    · obtain ⟨q, s, kk, hqk⟩ := walk_ring_logs_joins pm (dirOf p0 p1) rest p0 p1 [] _ h2
      exact TraceEvent.noConfusion hqk

/-- Witness for the amended C7 at the concrete square ring
[(0,0),(10,0),(10,10),(0,10),(0,0)] with Round joins and Butt caps. -/
theorem c7_witness :
    (dedupConsec [(0,0),(10,0),(10,10),(0,10),(0,0)] =
        ((0,0) : Coord) :: (10,0) :: [(10,10),(0,10),(0,0)] ∧
      2 ≤ ([((10,10) : Coord),(0,10),(0,0)]).length ∧
      lastTwo (dedupConsec [(0,0),(10,0),(10,10),(0,10),(0,0)]) = some ((0,10), (0,0))) ∧
    ((TraceEvent.join (0,0) (LayoutParams.mk 2 .butt .round 2 1).join
        (joinDispatch (LayoutParams.mk 2 .butt .round 2 1).join
          (dirOf (0,10) (0,0)) (dirOf (0,0) (10,0))
          (LayoutParams.mk 2 .butt .round 2 1).miterLimit) ∈
      (addGeometry ⟨2, .butt, .round, 2, 1⟩ .polygon LineBucket.empty
        [(0,0),(10,0),(10,10),(0,10),(0,0)]).log.drop LineBucket.empty.log.length) ∧
    ∀ c k, TraceEvent.cap c k ∉
      (addGeometry ⟨2, .butt, .round, 2, 1⟩ .polygon LineBucket.empty
        [(0,0),(10,0),(10,10),(0,10),(0,0)]).log.drop LineBucket.empty.log.length) := by
  have h1 : dedupConsec [(0,0),(10,0),(10,10),(0,10),(0,0)] =
      ((0,0) : Coord) :: (10,0) :: [(10,10),(0,10),(0,0)] := by decide
  have h2 : 2 ≤ ([((10,10) : Coord),(0,10),(0,0)]).length := by decide
  have h3 : lastTwo (dedupConsec [(0,0),(10,0),(10,10),(0,10),(0,0)]) =
      some ((0,10), (0,0)) := by decide
  exact ⟨⟨h1, h2, h3⟩,
    c7_ring_amended ⟨2, .butt, .round, 2, 1⟩ .polygon LineBucket.empty
      [(0,0),(10,0),(10,10),(0,10),(0,0)] (0,0) (10,0) [(10,10),(0,10),(0,0)] (0,10)
      h1 h2 h3⟩

end LineTess

namespace LineTess

theorem chainFrom_snoc : ∀ (segs : List Segment) (v i V I : ℕ),
    chainFrom v i segs V I →
    chainFrom v i (segs ++ [⟨V, 0, I, 0⟩]) V I := by
  intro segs
  induction segs with
  | nil =>
    intro v i V I h
    simp only [chainFrom] at h
    simp only [List.nil_append, chainFrom]
    omega
  | cons s segs ih =>
    intro v i V I h
    simp only [chainFrom] at h
    simp only [List.cons_append, chainFrom]
    exact ⟨h.1, h.2.1, ih _ _ _ _ h.2.2⟩

theorem chainFrom_grow_last : ∀ (segs : List Segment) (c c2 : Segment) (kv ki : ℕ),
    c2.vertexOffset = c.vertexOffset → c2.indexOffset = c.indexOffset →
    c2.vertexLength = c.vertexLength + kv → c2.indexLength = c.indexLength + ki →
    ∀ (v i V I : ℕ), chainFrom v i (segs ++ [c]) V I →
    chainFrom v i (segs ++ [c2]) (V + kv) (I + ki) := by
  intro segs
  induction segs with
  | nil =>
    intro c c2 kv ki h1 h2 h3 h4 v i V I h
    simp only [List.nil_append, chainFrom] at h ⊢
    omega
  | cons s segs ih =>
    intro c c2 kv ki h1 h2 h3 h4 v i V I h
    simp only [List.cons_append, chainFrom] at h ⊢
    exact ⟨h.1, h.2.1, ih c c2 kv ki h1 h2 h3 h4 _ _ _ _ h.2.2⟩

theorem chainFrom_last : ∀ (segs : List Segment) (c : Segment) (v i V I : ℕ),
    chainFrom v i (segs ++ [c]) V I →
    c.vertexOffset + c.vertexLength = V ∧ c.indexOffset + c.indexLength = I := by
  intro segs
  induction segs with
  | nil =>
    intro c v i V I h
    simp only [List.nil_append, chainFrom] at h
    omega
  | cons s segs ih =>
    intro c v i V I h
    simp only [List.cons_append, chainFrom] at h
    exact ih c _ _ _ _ h.2.2

theorem segments_some (b : LineBucket) (c : Segment) (h : b.curSeg = some c) :
    b.segments = b.closedSegs ++ [c] := by
  simp [LineBucket.segments, h]

theorem segments_none (b : LineBucket) (h : b.curSeg = none) :
    b.segments = b.closedSegs := by
  simp [LineBucket.segments, h]

theorem inSeg_mono (c c2 : Segment) (hoff : c2.vertexOffset = c.vertexOffset)
    (hlen : c.vertexLength ≤ c2.vertexLength) (a : ℕ) (h : inSeg c a) : inSeg c2 a := by
  unfold inSeg at h ⊢
  omega

theorem resolveRef_inSeg (pr : Option PairInfo) (base n : ℕ) (c : Segment)
    (hpair : ∀ pi, pr = some pi → inSeg c pi.i1 ∧ inSeg c pi.i2)
    (hbase1 : c.vertexOffset ≤ base) (hbase2 : base + n ≤ c.vertexOffset + c.vertexLength)
    (r : Ref) (a : ℕ) (h : resolveRef pr base n r = some a) : inSeg c a := by
  cases r with
  | prevA =>
    simp only [resolveRef, Option.map_eq_some'] at h
    obtain ⟨pi, hpi, ha⟩ := h
    rw [← ha]
    exact (hpair pi hpi).1
  | prevB =>
    simp only [resolveRef, Option.map_eq_some'] at h
    obtain ⟨pi, hpi, ha⟩ := h
    rw [← ha]
    exact (hpair pi hpi).2
  | fresh i =>
    simp only [resolveRef] at h
    split at h
    · rename_i hi
      obtain rfl : base + i = a := by injection h
      unfold inSeg
      omega
    · exact absurd h (by simp)

end LineTess


namespace LineTess

theorem reEmitPair_of_none (b : LineBucket) (h : b.curPair = none) : reEmitPair b = b := by
  unfold reEmitPair
  rw [h]

theorem reEmitPair_some_some (b : LineBucket) (pi : PairInfo) (c : Segment)
    (h : b.curPair = some pi) (hc : b.curSeg = some c) :
    reEmitPair b = { b with vertices := b.vertices ++ [pi.v1, pi.v2],
                            curSeg := some { c with vertexLength := c.vertexLength + 2 },
                            curPair := some ⟨b.vertices.length, pi.v1,
                                             b.vertices.length + 1, pi.v2⟩ } := by
  unfold reEmitPair
  rw [h, hc]
  rfl

theorem pair_none_of_curSeg_none (b : LineBucket) (hInv : Inv b) (hc : b.curSeg = none) :
    b.curPair = none := by
  cases hp : b.curPair with
  | none => rfl
  | some pi =>
    obtain ⟨c, hcc, _⟩ := hInv.pairIn pi hp
    rw [hc] at hcc
    exact absurd hcc (by simp)

end LineTess

namespace LineTess

theorem ensure_stage (b : LineBucket) (n : ℕ) (hInv : Inv b) (hn : n + 2 ≤ maxSegmentVertices)
    (b1 : LineBucket)
    (hb1 : (if (ensureSegment b n).2 then reEmitPair (ensureSegment b n).1
            else (ensureSegment b n).1) = b1) :
    ∃ c1 : Segment,
      b1.curSeg = some c1 ∧
      c1.vertexLength + n ≤ maxSegmentVertices ∧
      chainFrom 0 0 (b1.closedSegs ++ [c1]) b1.vertices.length (3 * b1.triangles.length) ∧
      (∀ s ∈ b1.closedSegs, s.vertexLength ≤ maxSegmentVertices) ∧
      c1.vertexLength ≤ maxSegmentVertices ∧
      (∀ pi, b1.curPair = some pi → inSeg c1 pi.i1 ∧ inSeg c1 pi.i2) ∧
      (∀ t ∈ b1.triangles, ∃ s ∈ b1.closedSegs ++ [c1], t.base = s.vertexOffset ∧
        inSeg s t.absA ∧ inSeg s t.absB ∧ inSeg s t.absC ∧
        t.relA = relOf t.absA t.base ∧ t.relB = relOf t.absB t.base ∧
        t.relC = relOf t.absC t.base) := by
  cases hc : b.curSeg with
  | none =>
    have hpnone : b.curPair = none := pair_none_of_curSeg_none b hInv hc
    have he : ensureSegment b n =
        ({ b with curSeg := some ⟨b.vertices.length, 0, 3 * b.triangles.length, 0⟩ }, true) := by
      simp [ensureSegment, hc]
    rw [he] at hb1
    have hb2 : reEmitPair
        { b with curSeg := some ⟨b.vertices.length, 0, 3 * b.triangles.length, 0⟩ } = b1 := hb1
    have hpn2 : ({ b with curSeg := some ⟨b.vertices.length, 0, 3 * b.triangles.length, 0⟩ } :
        LineBucket).curPair = none := hpnone
    rw [reEmitPair_of_none _ hpn2] at hb2
    subst hb2
    have hsegs : b.segments = b.closedSegs := segments_none b hc
    have hch := hInv.chain
    rw [hsegs] at hch
    refine ⟨_, rfl, ?_, ?_, ?_, ?_, ?_, ?_⟩
    · show 0 + n ≤ maxSegmentVertices
      omega
    · exact chainFrom_snoc _ _ _ _ _ hch
    · intro s hs
      exact hInv.bound s (by rw [hsegs]; exact hs)
    · show (0:ℕ) ≤ maxSegmentVertices
      omega
    · intro pi hpi
      rw [hpn2] at hpi
      exact absurd hpi (by simp)
    · intro t ht
      obtain ⟨s, hs, hrest⟩ := hInv.triOk t ht
      rw [hsegs] at hs
      exact ⟨s, List.mem_append_left _ hs, hrest⟩
  | some c =>
    by_cases hov : maxSegmentVertices < c.vertexLength + n
    · have he : ensureSegment b n =
          ({ b with closedSegs := b.closedSegs ++ [c],
                    curSeg := some ⟨b.vertices.length, 0, 3 * b.triangles.length, 0⟩ }, true) := by
        simp [ensureSegment, hc, hov]
      rw [he] at hb1
      have hb2 : reEmitPair
          { b with
            closedSegs := b.closedSegs ++ [c],
            curSeg := some ⟨b.vertices.length, 0, 3 * b.triangles.length, 0⟩ } = b1 := hb1
      have hsegs : b.segments = b.closedSegs ++ [c] := segments_some b c hc
      have hch := hInv.chain
      rw [hsegs] at hch
      have hch2 := chainFrom_snoc _ _ _ _ _ hch
      cases hp : b.curPair with
      | none =>
        have hpn2 : ({ b with
            closedSegs := b.closedSegs ++ [c],
            curSeg := some ⟨b.vertices.length, 0, 3 * b.triangles.length, 0⟩ } :
            LineBucket).curPair = none := hp
        rw [reEmitPair_of_none _ hpn2] at hb2
        subst hb2
        refine ⟨_, rfl, ?_, ?_, ?_, ?_, ?_, ?_⟩
        · show 0 + n ≤ maxSegmentVertices
          omega
        · exact hch2
        · intro s hs
          exact hInv.bound s (by rw [hsegs]; exact hs)
        · show (0:ℕ) ≤ maxSegmentVertices
          omega
        · intro pi hpi
          rw [hpn2] at hpi
          exact absurd hpi (by simp)
        · intro t ht
          obtain ⟨s, hs, hrest⟩ := hInv.triOk t ht
          rw [hsegs] at hs
          exact ⟨s, List.mem_append_left _ hs, hrest⟩
      | some pi =>
        have hpn2 : ({ b with
            closedSegs := b.closedSegs ++ [c],
            curSeg := some ⟨b.vertices.length, 0, 3 * b.triangles.length, 0⟩ } :
            LineBucket).curPair = some pi := hp
        rw [reEmitPair_some_some _ pi ⟨b.vertices.length, 0, 3 * b.triangles.length, 0⟩
          hpn2 rfl] at hb2
        subst hb2
        refine ⟨_, rfl, ?_, ?_, ?_, ?_, ?_, ?_⟩
        · show 0 + 2 + n ≤ maxSegmentVertices
          omega
        · show chainFrom 0 0 ((b.closedSegs ++ [c]) ++
            [⟨b.vertices.length, 0 + 2, 3 * b.triangles.length, 0⟩])
            (b.vertices ++ [pi.v1, pi.v2]).length (3 * b.triangles.length)
          have hlen2 : (b.vertices ++ [pi.v1, pi.v2]).length = b.vertices.length + 2 := by simp
          rw [hlen2]
          have hgrow := chainFrom_grow_last (b.closedSegs ++ [c])
            ⟨b.vertices.length, 0, 3 * b.triangles.length, 0⟩
            ⟨b.vertices.length, 0 + 2, 3 * b.triangles.length, 0⟩ 2 0
            rfl rfl rfl rfl 0 0 _ _ hch2
          simpa using hgrow
        · intro s hs
          exact hInv.bound s (by rw [hsegs]; exact hs)
        · show 0 + 2 ≤ maxSegmentVertices
          omega
        · intro pi2 hpi2
          have hpi3 : pi2 = ⟨b.vertices.length, pi.v1, b.vertices.length + 1, pi.v2⟩ := by
            have h5 : some pi2 = some (⟨b.vertices.length, pi.v1, b.vertices.length + 1, pi.v2⟩ :
              PairInfo) := hpi2.symm
            injection h5
          subst hpi3
          constructor
          · show inSeg ⟨b.vertices.length, 0 + 2, 3 * b.triangles.length, 0⟩ b.vertices.length
            unfold inSeg
            refine ⟨le_refl _, ?_⟩
            show b.vertices.length < b.vertices.length + (0 + 2)
            omega
          · show inSeg ⟨b.vertices.length, 0 + 2, 3 * b.triangles.length, 0⟩ (b.vertices.length + 1)
            unfold inSeg
            refine ⟨?_, ?_⟩
            · show b.vertices.length ≤ b.vertices.length + 1
              omega
            · show b.vertices.length + 1 < b.vertices.length + (0 + 2)
              omega
        · intro t ht
          obtain ⟨s, hs, hrest⟩ := hInv.triOk t ht
          rw [hsegs] at hs
          exact ⟨s, List.mem_append_left _ hs, hrest⟩
    · have he : ensureSegment b n = (b, false) := by
        simp [ensureSegment, hc, hov]
      rw [he] at hb1
      have hb2 : b = b1 := hb1
      subst hb2
      have hsegs : b.segments = b.closedSegs ++ [c] := segments_some b c hc
      have hch := hInv.chain
      rw [hsegs] at hch
      refine ⟨c, hc, by omega, hch, ?_, ?_, ?_, ?_⟩
      · intro s hs
        exact hInv.bound s (by rw [hsegs]; exact List.mem_append_left _ hs)
      · exact hInv.bound c (by rw [hsegs]; exact List.mem_append_right _ (by simp))
      · intro pi hpi
        obtain ⟨c2, hc2, h1, h2⟩ := hInv.pairIn pi hpi
        rw [hc] at hc2
        have hcc : c = c2 := by injection hc2
        subst hcc
        exact ⟨h1, h2⟩
      · intro t ht
        obtain ⟨s, hs, hrest⟩ := hInv.triOk t ht
        rw [hsegs] at hs
        exact ⟨s, hs, hrest⟩

end LineTess

namespace LineTess

theorem inv_log (b : LineBucket) (l : List TraceEvent) (h : Inv b) : Inv { b with log := l } :=
  ⟨h.chain, h.bound, h.pairIn, h.triOk⟩

theorem appendVerts_curSeg (b1 : LineBucket) (c1 : Segment) (vs : List Vertex)
    (hc1 : b1.curSeg = some c1) :
    (appendVerts b1 vs).curSeg =
      some ⟨c1.vertexOffset, c1.vertexLength + vs.length, c1.indexOffset, c1.indexLength⟩ := by
  simp [appendVerts, hc1]

theorem append_stage (b1 : LineBucket) (c1 : Segment) (vs : List Vertex) (n : ℕ)
    (tris : List (Ref × Ref × Ref)) (ps : Option (ℕ × ℕ))
    (hvn : vs.length = n)
    (hc1 : b1.curSeg = some c1)
    (hn2 : c1.vertexLength + n ≤ maxSegmentVertices)
    (hch1 : chainFrom 0 0 (b1.closedSegs ++ [c1]) b1.vertices.length (3 * b1.triangles.length))
    (hbnd1 : ∀ s ∈ b1.closedSegs, s.vertexLength ≤ maxSegmentVertices)
    (hpair1 : ∀ pi, b1.curPair = some pi → inSeg c1 pi.i1 ∧ inSeg c1 pi.i2)
    (htri1 : ∀ t ∈ b1.triangles, ∃ s ∈ b1.closedSegs ++ [c1], t.base = s.vertexOffset ∧
      inSeg s t.absA ∧ inSeg s t.absB ∧ inSeg s t.absC ∧
      t.relA = relOf t.absA t.base ∧ t.relB = relOf t.absB t.base ∧
      t.relC = relOf t.absC t.base) :
    Inv (setPair (appendTris (appendVerts b1 vs) b1.vertices.length n tris)
          b1.vertices.length vs ps) := by
  have hVc : c1.vertexOffset + c1.vertexLength = b1.vertices.length ∧
      c1.indexOffset + c1.indexLength = 3 * b1.triangles.length :=
    chainFrom_last _ _ _ _ _ _ hch1
  have h2s : (appendVerts b1 vs).curSeg =
      some ⟨c1.vertexOffset, c1.vertexLength + n, c1.indexOffset, c1.indexLength⟩ := by
    rw [appendVerts_curSeg b1 c1 vs hc1, hvn]
  have h2v : (appendVerts b1 vs).vertices = b1.vertices ++ vs := rfl
  have h2t : (appendVerts b1 vs).triangles = b1.triangles := rfl
  have h2c : (appendVerts b1 vs).closedSegs = b1.closedSegs := rfl
  have h2p : (appendVerts b1 vs).curPair = b1.curPair := rfl
  -- the new triangles
  have hb3 : appendTris (appendVerts b1 vs) b1.vertices.length n tris =
      { appendVerts b1 vs with
        triangles := (appendVerts b1 vs).triangles ++
          tris.filterMap (fun r =>
            match resolveRef (appendVerts b1 vs).curPair b1.vertices.length n r.1,
                  resolveRef (appendVerts b1 vs).curPair b1.vertices.length n r.2.1,
                  resolveRef (appendVerts b1 vs).curPair b1.vertices.length n r.2.2 with
            | some a, some b2, some c => some (mkTri a b2 c c1.vertexOffset)
            | _, _, _ => none),
        curSeg := some ⟨c1.vertexOffset, c1.vertexLength + n, c1.indexOffset,
          c1.indexLength + 3 * (tris.filterMap (fun r =>
            match resolveRef (appendVerts b1 vs).curPair b1.vertices.length n r.1,
                  resolveRef (appendVerts b1 vs).curPair b1.vertices.length n r.2.1,
                  resolveRef (appendVerts b1 vs).curPair b1.vertices.length n r.2.2 with
            | some a, some b2, some c => some (mkTri a b2 c c1.vertexOffset)
            | _, _, _ => none)).length⟩ } := by
    unfold appendTris
    rw [h2s]
    rfl
  generalize hNT : (tris.filterMap (fun r =>
      match resolveRef (appendVerts b1 vs).curPair b1.vertices.length n r.1,
            resolveRef (appendVerts b1 vs).curPair b1.vertices.length n r.2.1,
            resolveRef (appendVerts b1 vs).curPair b1.vertices.length n r.2.2 with
      | some a, some b2, some c => some (mkTri a b2 c c1.vertexOffset)
      | _, _, _ => none)) = NT at hb3
  -- facts about the fresh triangles
  have hNTmem : ∀ t ∈ NT, t.base = c1.vertexOffset ∧
      inSeg ⟨c1.vertexOffset, c1.vertexLength + n, c1.indexOffset, c1.indexLength⟩ t.absA ∧
      inSeg ⟨c1.vertexOffset, c1.vertexLength + n, c1.indexOffset, c1.indexLength⟩ t.absB ∧
      inSeg ⟨c1.vertexOffset, c1.vertexLength + n, c1.indexOffset, c1.indexLength⟩ t.absC ∧
      t.relA = relOf t.absA t.base ∧ t.relB = relOf t.absB t.base ∧
      t.relC = relOf t.absC t.base := by
    intro t ht
    rw [← hNT, List.mem_filterMap] at ht
    obtain ⟨r, hr, hF⟩ := ht
    have hpair2 : ∀ pi, (appendVerts b1 vs).curPair = some pi →
        inSeg ⟨c1.vertexOffset, c1.vertexLength + n, c1.indexOffset, c1.indexLength⟩ pi.i1 ∧
        inSeg ⟨c1.vertexOffset, c1.vertexLength + n, c1.indexOffset, c1.indexLength⟩ pi.i2 := by
      intro pi hpi
      rw [h2p] at hpi
      obtain ⟨ha, hb⟩ := hpair1 pi hpi
      constructor
      · exact inSeg_mono c1 ⟨c1.vertexOffset, c1.vertexLength + n, c1.indexOffset, c1.indexLength⟩ rfl (Nat.le_add_right _ _) _ ha
      · exact inSeg_mono c1 ⟨c1.vertexOffset, c1.vertexLength + n, c1.indexOffset, c1.indexLength⟩ rfl (Nat.le_add_right _ _) _ hb
    have hbase1 : (⟨c1.vertexOffset, c1.vertexLength + n, c1.indexOffset, c1.indexLength⟩ :
        Segment).vertexOffset ≤ b1.vertices.length := by
      show c1.vertexOffset ≤ b1.vertices.length
      omega
    have hbase2 : b1.vertices.length + n ≤
        (⟨c1.vertexOffset, c1.vertexLength + n, c1.indexOffset, c1.indexLength⟩ :
          Segment).vertexOffset +
        (⟨c1.vertexOffset, c1.vertexLength + n, c1.indexOffset, c1.indexLength⟩ :
          Segment).vertexLength := by
      show b1.vertices.length + n ≤ c1.vertexOffset + (c1.vertexLength + n)
      omega
    cases h1 : resolveRef (appendVerts b1 vs).curPair b1.vertices.length n r.1 with
    | none => rw [h1] at hF; exact absurd hF (by simp)
    | some a =>
      cases h2 : resolveRef (appendVerts b1 vs).curPair b1.vertices.length n r.2.1 with
      | none => rw [h1, h2] at hF; exact absurd hF (by simp)
      | some a2 =>
        cases h3 : resolveRef (appendVerts b1 vs).curPair b1.vertices.length n r.2.2 with
        | none => rw [h1, h2, h3] at hF; exact absurd hF (by simp)
        | some a3 =>
          rw [h1, h2, h3] at hF
          have ht2 : mkTri a a2 a3 c1.vertexOffset = t := by
            injection hF
          subst ht2
          refine ⟨rfl, ?_, ?_, ?_, rfl, rfl, rfl⟩
          · exact resolveRef_inSeg _ _ _ _ hpair2 hbase1 hbase2 _ _ h1
          · exact resolveRef_inSeg _ _ _ _ hpair2 hbase1 hbase2 _ _ h2
          · exact resolveRef_inSeg _ _ _ _ hpair2 hbase1 hbase2 _ _ h3
  -- characterize the post-append state
  have h3v : (appendTris (appendVerts b1 vs) b1.vertices.length n tris).vertices =
      b1.vertices ++ vs := by rw [hb3]; try rfl
  have h3t : (appendTris (appendVerts b1 vs) b1.vertices.length n tris).triangles =
      b1.triangles ++ NT := by rw [hb3]; try rfl
  have h3c : (appendTris (appendVerts b1 vs) b1.vertices.length n tris).closedSegs =
      b1.closedSegs := by rw [hb3]; try rfl
  have h3p : (appendTris (appendVerts b1 vs) b1.vertices.length n tris).curPair =
      b1.curPair := by rw [hb3]; try rfl
  have h3s : (appendTris (appendVerts b1 vs) b1.vertices.length n tris).curSeg =
      some ⟨c1.vertexOffset, c1.vertexLength + n, c1.indexOffset,
        c1.indexLength + 3 * NT.length⟩ := by rw [hb3]; try rfl
  -- the grown open segment
  have hchain3 : chainFrom 0 0 (b1.closedSegs ++
      [⟨c1.vertexOffset, c1.vertexLength + n, c1.indexOffset, c1.indexLength + 3 * NT.length⟩])
      (b1.vertices ++ vs).length (3 * (b1.triangles ++ NT).length) := by
    have hg := chainFrom_grow_last b1.closedSegs c1
      ⟨c1.vertexOffset, c1.vertexLength + n, c1.indexOffset, c1.indexLength + 3 * NT.length⟩
      n (3 * NT.length) rfl rfl rfl rfl 0 0 _ _ hch1
    have hl1 : (b1.vertices ++ vs).length = b1.vertices.length + n := by
      simp [hvn]
    have hl2 : 3 * (b1.triangles ++ NT).length = 3 * b1.triangles.length + 3 * NT.length := by
      simp
      ring
    rw [hl1, hl2]
    exact hg
  have htriAll : ∀ t ∈ b1.triangles ++ NT, ∃ s ∈ b1.closedSegs ++
      [⟨c1.vertexOffset, c1.vertexLength + n, c1.indexOffset, c1.indexLength + 3 * NT.length⟩],
      t.base = s.vertexOffset ∧ inSeg s t.absA ∧ inSeg s t.absB ∧ inSeg s t.absC ∧
      t.relA = relOf t.absA t.base ∧ t.relB = relOf t.absB t.base ∧
      t.relC = relOf t.absC t.base := by
    intro t ht
    rcases List.mem_append.mp ht with hold | hnew
    · obtain ⟨s, hs, hbase, hA, hB, hC, hr⟩ := htri1 t hold
      rcases List.mem_append.mp hs with hsc | hslast
      · exact ⟨s, List.mem_append_left _ hsc, hbase, hA, hB, hC, hr⟩
      · have hseq : s = c1 := by simpa using hslast
        rw [hseq] at hbase hA hB hC
        refine ⟨⟨c1.vertexOffset, c1.vertexLength + n, c1.indexOffset,
          c1.indexLength + 3 * NT.length⟩, List.mem_append_right _ (by simp), hbase, ?_, ?_, ?_, hr⟩
        · exact inSeg_mono c1 ⟨c1.vertexOffset, c1.vertexLength + n, c1.indexOffset, c1.indexLength + 3 * NT.length⟩ rfl (Nat.le_add_right _ _) _ hA
        · exact inSeg_mono c1 ⟨c1.vertexOffset, c1.vertexLength + n, c1.indexOffset, c1.indexLength + 3 * NT.length⟩ rfl (Nat.le_add_right _ _) _ hB
        · exact inSeg_mono c1 ⟨c1.vertexOffset, c1.vertexLength + n, c1.indexOffset, c1.indexLength + 3 * NT.length⟩ rfl (Nat.le_add_right _ _) _ hC
    · obtain ⟨hbase, hA, hB, hC, hr1, hr2, hr3⟩ := hNTmem t hnew
      refine ⟨⟨c1.vertexOffset, c1.vertexLength + n, c1.indexOffset,
        c1.indexLength + 3 * NT.length⟩, List.mem_append_right _ (by simp), hbase, ?_, ?_, ?_,
        hr1, hr2, hr3⟩
      · exact inSeg_mono ⟨c1.vertexOffset, c1.vertexLength + n, c1.indexOffset, c1.indexLength⟩ ⟨c1.vertexOffset, c1.vertexLength + n, c1.indexOffset, c1.indexLength + 3 * NT.length⟩ rfl (le_refl _) _ hA
      · exact inSeg_mono ⟨c1.vertexOffset, c1.vertexLength + n, c1.indexOffset, c1.indexLength⟩ ⟨c1.vertexOffset, c1.vertexLength + n, c1.indexOffset, c1.indexLength + 3 * NT.length⟩ rfl (le_refl _) _ hB
      · exact inSeg_mono ⟨c1.vertexOffset, c1.vertexLength + n, c1.indexOffset, c1.indexLength⟩ ⟨c1.vertexOffset, c1.vertexLength + n, c1.indexOffset, c1.indexLength + 3 * NT.length⟩ rfl (le_refl _) _ hC
  have hbnd3 : ∀ s ∈ b1.closedSegs ++
      [⟨c1.vertexOffset, c1.vertexLength + n, c1.indexOffset, c1.indexLength + 3 * NT.length⟩],
      s.vertexLength ≤ maxSegmentVertices := by
    intro s hs
    rcases List.mem_append.mp hs with h | h
    · exact hbnd1 s h
    · have hseq : s = ⟨c1.vertexOffset, c1.vertexLength + n, c1.indexOffset,
        c1.indexLength + 3 * NT.length⟩ := by simpa using h
      subst hseq
      show c1.vertexLength + n ≤ maxSegmentVertices
      exact hn2
  -- now the final pair update
  have hkeep : Inv (appendTris (appendVerts b1 vs) b1.vertices.length n tris) := by
    refine ⟨?_, ?_, ?_, ?_⟩
    · rw [segments_some _ _ h3s, h3c, h3v, h3t]
      exact hchain3
    · intro s hs
      rw [segments_some _ _ h3s, h3c] at hs
      exact hbnd3 s hs
    · intro pi hpi
      rw [h3p] at hpi
      obtain ⟨ha, hb⟩ := hpair1 pi hpi
      refine ⟨_, h3s, ?_, ?_⟩
      · exact inSeg_mono c1 ⟨c1.vertexOffset, c1.vertexLength + n, c1.indexOffset, c1.indexLength + 3 * NT.length⟩ rfl (Nat.le_add_right _ _) _ ha
      · exact inSeg_mono c1 ⟨c1.vertexOffset, c1.vertexLength + n, c1.indexOffset, c1.indexLength + 3 * NT.length⟩ rfl (Nat.le_add_right _ _) _ hb
    · intro t ht
      rw [h3t] at ht
      obtain ⟨s, hs, hrest⟩ := htriAll t ht
      refine ⟨s, ?_, hrest⟩
      rw [segments_some _ _ h3s, h3c]
      exact hs
  cases hps : ps with
  | none => exact hkeep
  | some ij =>
    obtain ⟨i, j⟩ := ij
    show Inv (match vs.get? i, vs.get? j with
      | some v1, some v2 =>
        { appendTris (appendVerts b1 vs) b1.vertices.length n tris with
          curPair := some ⟨b1.vertices.length + i, v1, b1.vertices.length + j, v2⟩ }
      | _, _ => appendTris (appendVerts b1 vs) b1.vertices.length n tris)
    cases hg1 : vs.get? i with
    | none => exact hkeep
    | some v1 =>
      cases hg2 : vs.get? j with
      | none => exact hkeep
      | some v2 =>
        have hilt : i < vs.length := by
          by_contra hcon
          rw [List.get?_eq_none.mpr (by omega)] at hg1
          exact Option.noConfusion hg1
        have hjlt : j < vs.length := by
          by_contra hcon
          rw [List.get?_eq_none.mpr (by omega)] at hg2
          exact Option.noConfusion hg2
        refine ⟨hkeep.chain, hkeep.bound, ?_, hkeep.triOk⟩
        intro pi hpi
        have hpieq : pi = ⟨b1.vertices.length + i, v1, b1.vertices.length + j, v2⟩ := by
          have h5 : some pi = some (⟨b1.vertices.length + i, v1, b1.vertices.length + j, v2⟩ :
            PairInfo) := hpi.symm
          injection h5
        subst hpieq
        refine ⟨_, h3s, ?_, ?_⟩
        · show inSeg ⟨c1.vertexOffset, c1.vertexLength + n, c1.indexOffset,
            c1.indexLength + 3 * NT.length⟩ (b1.vertices.length + i)
          unfold inSeg
          constructor
          · show c1.vertexOffset ≤ b1.vertices.length + i
            omega
          · show b1.vertices.length + i < c1.vertexOffset + (c1.vertexLength + n)
            omega
        · show inSeg ⟨c1.vertexOffset, c1.vertexLength + n, c1.indexOffset,
            c1.indexLength + 3 * NT.length⟩ (b1.vertices.length + j)
          unfold inSeg
          constructor
          · show c1.vertexOffset ≤ b1.vertices.length + j
            omega
          · show b1.vertices.length + j < c1.vertexOffset + (c1.vertexLength + n)
            omega

end LineTess

namespace LineTess

theorem emitEvent_main (b : LineBucket) (ev : Event) (hv : ¬(ev.verts = [] ∧ ev.tris = [])) :
    emitEvent b ev =
      { setPair
          (appendTris
            (appendVerts
              (if (ensureSegment b ev.verts.length).2
               then reEmitPair (ensureSegment b ev.verts.length).1
               else (ensureSegment b ev.verts.length).1)
              (ev.verts.map (mkVertex ev.trav)))
            (if (ensureSegment b ev.verts.length).2
             then reEmitPair (ensureSegment b ev.verts.length).1
             else (ensureSegment b ev.verts.length).1).vertices.length
            ev.verts.length ev.tris)
          (if (ensureSegment b ev.verts.length).2
           then reEmitPair (ensureSegment b ev.verts.length).1
           else (ensureSegment b ev.verts.length).1).vertices.length
          (ev.verts.map (mkVertex ev.trav)) ev.pairSet
        with log :=
          (setPair
            (appendTris
              (appendVerts
                (if (ensureSegment b ev.verts.length).2
                 then reEmitPair (ensureSegment b ev.verts.length).1
                 else (ensureSegment b ev.verts.length).1)
                (ev.verts.map (mkVertex ev.trav)))
              (if (ensureSegment b ev.verts.length).2
               then reEmitPair (ensureSegment b ev.verts.length).1
               else (ensureSegment b ev.verts.length).1).vertices.length
              ev.verts.length ev.tris)
            (if (ensureSegment b ev.verts.length).2
             then reEmitPair (ensureSegment b ev.verts.length).1
             else (ensureSegment b ev.verts.length).1).vertices.length
            (ev.verts.map (mkVertex ev.trav)) ev.pairSet).log ++ ev.logs } := by
  unfold emitEvent
  rw [if_neg hv]

theorem emitEvent_inv (b : LineBucket) (ev : Event) (hInv : Inv b)
    (hn : ev.verts.length + 2 ≤ maxSegmentVertices) : Inv (emitEvent b ev) := by
  by_cases hv : ev.verts = [] ∧ ev.tris = []
  · have he : emitEvent b ev = { b with log := b.log ++ ev.logs } := by
      unfold emitEvent
      rw [if_pos hv]
    rw [he]
    exact inv_log b _ hInv
  · obtain ⟨c1, hc1, hc1n, hch1, hbnd1, hc1b, hpair1, htri1⟩ :=
      ensure_stage b ev.verts.length hInv hn _ rfl
    rw [emitEvent_main b ev hv]
    exact inv_log _ _ (append_stage _ c1 (ev.verts.map (mkVertex ev.trav)) ev.verts.length
      ev.tris ev.pairSet (by simp) hc1 hc1n hch1 hbnd1 hpair1 htri1)

theorem applyEvents_inv (evs : List Event) : ∀ b : LineBucket, Inv b →
    (∀ ev ∈ evs, ev.verts.length + 2 ≤ maxSegmentVertices) → Inv (applyEvents b evs) := by
  induction evs with
  | nil => intro b h _; exact h
  | cons e evs ih =>
    intro b h hsz
    rw [applyEvents_cons]
    exact ih _ (emitEvent_inv b e h (hsz e (by simp))) (fun ev hev => hsz ev (by simp [hev]))

end LineTess

namespace LineTess

theorem fanCount_le (d1 d2 : Coord) (rl : ℚ) : fanCount d1 d2 rl ≤ 3 := by
  unfold fanCount
  split <;> omega

theorem capGeomEvs_size (cap : CapType) (p d : Coord) (t : List (Coord × Coord)) :
    ∀ ev ∈ capGeomEvs cap p d t, ev.verts.length ≤ 3 := by
  intro ev hev
  cases cap <;> simp [capGeomEvs, squareCapEv, roundCapEv] at hev
  · subst hev; simp [squareCapEv]
  · subst hev; simp [roundCapEv]

theorem joinEvs_size (pm : LayoutParams) (p d1 d2 : Coord) (t : List (Coord × Coord)) :
    ∀ ev ∈ joinEvs pm p d1 d2 t, ev.verts.length ≤ 3 := by
  intro ev hev
  unfold joinEvs at hev
  rcases hk : joinDispatch pm.join d1 d2 pm.miterLimit with _ | _ | _ | _ <;>
    rw [hk] at hev <;>
    simp [logEv, addCurrentVertexEv, bevelJoinEv, addPieSliceFanEv, startPairEv] at hev
  · rcases hev with h | h <;> subst h <;> simp [logEv, addCurrentVertexEv]
  · rcases hev with h | h <;> subst h <;> simp [logEv, addCurrentVertexEv]
  · rcases hev with h | h | h <;> subst h <;>
      simp [logEv, addCurrentVertexEv, bevelJoinEv]
  · rcases hev with h | h | h | h <;> subst h <;>
      simp [logEv, addCurrentVertexEv, addPieSliceFanEv, startPairEv]
    exact fanCount_le _ _ _

theorem wrapJoinEvs_size (pm : LayoutParams) (p dLast dF : Coord) (t : List (Coord × Coord)) :
    ∀ ev ∈ wrapJoinEvs pm p dLast dF t, ev.verts.length ≤ 3 := by
  intro ev hev
  unfold wrapJoinEvs at hev
  rcases hk : joinDispatch pm.join dLast dF pm.miterLimit with _ | _ | _ | _ <;>
    rw [hk] at hev <;>
    simp [logEv, bevelCornerEv, addPieSliceFanEv] at hev
  · subst hev; simp [logEv]
  · subst hev; simp [logEv]
  · rcases hev with h | h <;> subst h <;> simp [logEv, bevelCornerEv]
  · rcases hev with h | h <;> subst h <;> simp [logEv, addPieSliceFanEv]
    exact fanCount_le _ _ _

theorem walkEvents_size (pm : LayoutParams) (tail : TailSpec) :
    ∀ (rest : List Coord) (t : List (Coord × Coord)) (prev cur : Coord),
    ∀ ev ∈ walkEvents pm tail t prev cur rest, ev.verts.length ≤ 3
  | [], t, prev, cur => by
    intro ev hev
    unfold walkEvents at hev
    rcases List.mem_cons.mp hev with h | h
    · subst h; simp [addCurrentVertexEv]
    · cases tail with
      | openCaps =>
        rcases List.mem_append.mp h with h2 | h2
        · exact capGeomEvs_size _ _ _ _ ev h2
        · have : ev = logEv (.cap cur pm.cap) := by simpa using h2
          subst this; simp [logEv]
      | ringWrap dF => exact wrapJoinEvs_size pm cur _ dF _ ev h
  | next :: rest, t, prev, cur => by
    intro ev hev
    unfold walkEvents at hev
    rcases List.mem_append.mp hev with h | h
    · exact joinEvs_size pm cur _ _ _ ev h
    · exact walkEvents_size pm tail rest _ cur next ev h

theorem eventsForLine_size (pm : LayoutParams) (ps : List Coord) :
    ∀ ev ∈ eventsForLine pm ps, ev.verts.length + 2 ≤ maxSegmentVertices := by
  intro ev hev
  have h3 : ev.verts.length ≤ 3 := by
    match ps with
    | [] => simp [eventsForLine] at hev
    | [p] => simp [eventsForLine] at hev
    | p0 :: p1 :: rest =>
      simp only [eventsForLine] at hev
      split at hev
      · rcases List.mem_cons.mp hev with h | h
        · subst h; simp [startPairEv]
        · exact walkEvents_size pm _ rest [] p0 p1 ev h
      · rcases List.mem_cons.mp hev with h | h
        · subst h; simp [logEv]
        · rcases List.mem_cons.mp h with h2 | h2
          · subst h2; simp [startPairEv]
          · rcases List.mem_append.mp h2 with h3 | h3
            · exact capGeomEvs_size _ _ _ _ ev h3
            · exact walkEvents_size pm _ rest [] p0 p1 ev h3
  show ev.verts.length + 2 ≤ 65536
  omega

theorem inv_empty : Inv LineBucket.empty := by
  refine ⟨⟨rfl, rfl⟩, ?_, ?_, ?_⟩
  · intro s hs
    exact absurd hs (List.not_mem_nil s)
  · intro pi hpi
    exact absurd hpi (by simp [LineBucket.empty])
  · intro t ht
    exact absurd ht (List.not_mem_nil t)

theorem inv_clearPair (b : LineBucket) (h : Inv b) : Inv { b with curPair := none } := by
  refine ⟨h.chain, h.bound, ?_, h.triOk⟩
  intro pi hpi
  exact absurd hpi (by simp)

theorem addGeometry_inv (pm : LayoutParams) (ft : FeatureType) (b : LineBucket)
    (line : List Coord) (h : Inv b) : Inv (addGeometry pm ft b line) := by
  simp only [addGeometry]
  split
  · exact h
  · exact applyEvents_inv _ _ (inv_clearPair b h) (eventsForLine_size pm _)

theorem addFeature_inv (pm : LayoutParams) (f : Feature) : ∀ (b : LineBucket), Inv b →
    Inv (addFeature pm b f) := by
  unfold addFeature
  generalize f.lines = ls
  induction ls with
  | nil => intro b h; exact h
  | cons l ls ih =>
    intro b h
    rw [List.foldl_cons]
    exact ih _ (addGeometry_inv pm f.ftype b l h)

theorem buildBucket_inv (pm : LayoutParams) (fs : List Feature) : Inv (buildBucket pm fs) := by
  unfold buildBucket
  have hgen : ∀ (b : LineBucket), Inv b → Inv (fs.foldl (addFeature pm) b) := by
    induction fs with
    | nil => intro b h; exact h
    | cons f fs ih =>
      intro b h
      rw [List.foldl_cons]
      exact ih _ (addFeature_inv pm f b h)
  exact hgen LineBucket.empty inv_empty

end LineTess

namespace LineTess

theorem setPair_curSeg (b : LineBucket) (base : ℕ) (vs : List Vertex) (ps : Option (ℕ × ℕ)) :
    (setPair b base vs ps).curSeg = b.curSeg := by
  cases ps with
  | none => rfl
  | some ij =>
    obtain ⟨i, j⟩ := ij
    show (match vs.get? i, vs.get? j with
      | some v1, some v2 =>
        { b with curPair := some ⟨base + i, v1, base + j, v2⟩ }
      | _, _ => b).curSeg = b.curSeg
    cases h1 : vs.get? i <;> cases h2 : vs.get? j <;> simp

theorem appendTris_curSeg_ex (b : LineBucket) (base n : ℕ) (trs : List (Ref × Ref × Ref))
    (c : Segment) (hc : b.curSeg = some c) :
    ∃ c2, (appendTris b base n trs).curSeg = some c2 ∧ c2.vertexOffset = c.vertexOffset := by
  simp only [appendTris]
  rw [hc]
  exact ⟨_, rfl, rfl⟩

theorem emitEvent_new_segment (bx : LineBucket) (ev : Event)
    (h1 : ¬(ev.verts = [] ∧ ev.tris = []))
    (h2 : bx.curSeg = none ∨ ∃ c, bx.curSeg = some c ∧
      maxSegmentVertices < c.vertexLength + ev.verts.length) :
    ∃ c2, (emitEvent bx ev).curSeg = some c2 ∧ c2.vertexOffset = bx.vertices.length := by
  rw [emitEvent_main bx ev h1]
  have hB1 : ∃ c1, (if (ensureSegment bx ev.verts.length).2
      then reEmitPair (ensureSegment bx ev.verts.length).1
      else (ensureSegment bx ev.verts.length).1).curSeg = some c1 ∧
      c1.vertexOffset = bx.vertices.length := by
    rcases h2 with hc | ⟨c, hc, hov⟩
    · cases hp : bx.curPair with
      | none =>
        refine ⟨⟨bx.vertices.length, 0, 3 * bx.triangles.length, 0⟩, ?_, rfl⟩
        simp [ensureSegment, hc, reEmitPair, hp]
      | some pi =>
        refine ⟨⟨bx.vertices.length, 2, 3 * bx.triangles.length, 0⟩, ?_, rfl⟩
        simp [ensureSegment, hc, reEmitPair, hp]
    · cases hp : bx.curPair with
      | none =>
        refine ⟨⟨bx.vertices.length, 0, 3 * bx.triangles.length, 0⟩, ?_, rfl⟩
        simp [ensureSegment, hc, hov, reEmitPair, hp]
      | some pi =>
        refine ⟨⟨bx.vertices.length, 2, 3 * bx.triangles.length, 0⟩, ?_, rfl⟩
        simp [ensureSegment, hc, hov, reEmitPair, hp]
  obtain ⟨c1, hc1, hvoff⟩ := hB1
  have hc2 : (appendVerts (if (ensureSegment bx ev.verts.length).2
      then reEmitPair (ensureSegment bx ev.verts.length).1
      else (ensureSegment bx ev.verts.length).1)
      (ev.verts.map (mkVertex ev.trav))).curSeg =
      some ⟨c1.vertexOffset, c1.vertexLength + (ev.verts.map (mkVertex ev.trav)).length,
        c1.indexOffset, c1.indexLength⟩ :=
    appendVerts_curSeg _ c1 _ hc1
  obtain ⟨c3, hc3, hvoff3⟩ := appendTris_curSeg_ex _ _ ev.verts.length ev.tris _ hc2
  refine ⟨c3, ?_, ?_⟩
  · show (setPair _ _ _ ev.pairSet).curSeg = some c3
    rw [setPair_curSeg]
    exact hc3
  · rw [hvoff3]
    exact hvoff

/-- C1: for every sequence of `addFeature` calls on an (initially empty)
line bucket, no segment's recorded vertex range exceeds 65536 entries, the
segments tile the accumulated vertex buffer contiguously from offset 0
with no gaps or overlaps (and likewise the index buffer); and whenever an
emission would overflow the active segment's vertex ceiling (or no segment
is open), a new segment is opened whose local vertex base is the
accumulator's current absolute vertex count. -/
theorem c1_segment_invariant (pm : LayoutParams) (fs : List Feature)
    (bx : LineBucket) (ev : Event)
    (h1 : ¬(ev.verts = [] ∧ ev.tris = []))
    (h2 : bx.curSeg = none ∨ ∃ c, bx.curSeg = some c ∧
      maxSegmentVertices < c.vertexLength + ev.verts.length) :
    (∀ s ∈ (buildBucket pm fs).segments, s.vertexLength ≤ maxSegmentVertices) ∧
    chainFrom 0 0 (buildBucket pm fs).segments (buildBucket pm fs).vertices.length
      (3 * (buildBucket pm fs).triangles.length) ∧
    ∃ c2, (emitEvent bx ev).curSeg = some c2 ∧ c2.vertexOffset = bx.vertices.length := by
  have hInv := buildBucket_inv pm fs
  exact ⟨hInv.bound, hInv.chain, emitEvent_new_segment bx ev h1 h2⟩

/-- Witness for C1 at one concrete feature and a concrete overflow
situation (the empty bucket has no open segment, so the first pair event
opens a segment based at vertex 0). -/
theorem c1_witness :
    (¬((startPairEv (0,0) (1,0) []).verts = [] ∧ (startPairEv (0,0) (1,0) []).tris = []) ∧
      (LineBucket.empty.curSeg = none ∨ ∃ c, LineBucket.empty.curSeg = some c ∧
        maxSegmentVertices < c.vertexLength + (startPairEv (0,0) (1,0) []).verts.length)) ∧
    ((∀ s ∈ (buildBucket ⟨2, .butt, .bevel, 2, 1⟩
        [⟨.line, [[(0,0),(1,0)]]⟩]).segments, s.vertexLength ≤ maxSegmentVertices) ∧
     chainFrom 0 0 (buildBucket ⟨2, .butt, .bevel, 2, 1⟩ [⟨.line, [[(0,0),(1,0)]]⟩]).segments
       (buildBucket ⟨2, .butt, .bevel, 2, 1⟩ [⟨.line, [[(0,0),(1,0)]]⟩]).vertices.length
       (3 * (buildBucket ⟨2, .butt, .bevel, 2, 1⟩ [⟨.line, [[(0,0),(1,0)]]⟩]).triangles.length) ∧
     ∃ c2, (emitEvent LineBucket.empty (startPairEv (0,0) (1,0) [])).curSeg = some c2 ∧
       c2.vertexOffset = LineBucket.empty.vertices.length) := by
  have h1 : ¬((startPairEv (0,0) (1,0) []).verts = [] ∧
      (startPairEv (0,0) (1,0) []).tris = []) := by decide
  have h2 : LineBucket.empty.curSeg = none ∨ ∃ c, LineBucket.empty.curSeg = some c ∧
      maxSegmentVertices < c.vertexLength + (startPairEv (0,0) (1,0) []).verts.length :=
    Or.inl rfl
  exact ⟨⟨h1, h2⟩,
    c1_segment_invariant ⟨2, .butt, .bevel, 2, 1⟩ [⟨.line, [[(0,0),(1,0)]]⟩]
      LineBucket.empty (startPairEv (0,0) (1,0) []) h1 h2⟩

/-- C10: every stored triangle's three 16-bit segment-relative indices are
the absolute vertex indices rebased against the owning segment's vertex
base: the truncating `uint16_t` conversion is the identity (each relative
index is strictly less than 65536), and the absolute indices lie inside
the owning segment's vertex range. -/
theorem c10_triangle_indices (pm : LayoutParams) (fs : List Feature) :
    ∀ t ∈ (buildBucket pm fs).triangles,
      ∃ s ∈ (buildBucket pm fs).segments, t.base = s.vertexOffset ∧
        inSeg s t.absA ∧ inSeg s t.absB ∧ inSeg s t.absC ∧
        t.relA = t.absA - t.base ∧ t.relB = t.absB - t.base ∧ t.relC = t.absC - t.base ∧
        t.relA < 65536 ∧ t.relB < 65536 ∧ t.relC < 65536 := by
  intro t ht
  have hInv := buildBucket_inv pm fs
  obtain ⟨s, hs, hbase, hA, hB, hC, hrA, hrB, hrC⟩ := hInv.triOk t ht
  have hb := hInv.bound s hs
  have hltA : t.absA - t.base < 65536 := by
    unfold inSeg at hA
    unfold maxSegmentVertices at hb
    omega
  have hltB : t.absB - t.base < 65536 := by
    unfold inSeg at hB
    unfold maxSegmentVertices at hb
    omega
  have hltC : t.absC - t.base < 65536 := by
    unfold inSeg at hC
    unfold maxSegmentVertices at hb
    omega
  have heA : t.relA = t.absA - t.base := by
    rw [hrA]
    unfold relOf maxSegmentVertices
    exact Nat.mod_eq_of_lt hltA
  have heB : t.relB = t.absB - t.base := by
    rw [hrB]
    unfold relOf maxSegmentVertices
    exact Nat.mod_eq_of_lt hltB
  have heC : t.relC = t.absC - t.base := by
    rw [hrC]
    unfold relOf maxSegmentVertices
    exact Nat.mod_eq_of_lt hltC
  exact ⟨s, hs, hbase, hA, hB, hC, heA, heB, heC,
    by rw [heA]; exact hltA, by rw [heB]; exact hltB, by rw [heC]; exact hltC⟩

/-- Witness for C10 at a concrete one-quad feature: the first stored
triangle of the line [(0,0),(10,0)]. -/
theorem c10_witness :
    (⟨0, 1, 2, 0, 0, 1, 2⟩ : Tri) ∈ (buildBucket ⟨2, .butt, .bevel, 2, 1⟩
        [⟨.line, [[(0,0),(10,0)]]⟩]).triangles ∧
    (∃ s ∈ (buildBucket ⟨2, .butt, .bevel, 2, 1⟩ [⟨.line, [[(0,0),(10,0)]]⟩]).segments,
      (⟨0, 1, 2, 0, 0, 1, 2⟩ : Tri).base = s.vertexOffset ∧
      inSeg s (⟨0, 1, 2, 0, 0, 1, 2⟩ : Tri).absA ∧
      inSeg s (⟨0, 1, 2, 0, 0, 1, 2⟩ : Tri).absB ∧
      inSeg s (⟨0, 1, 2, 0, 0, 1, 2⟩ : Tri).absC ∧
      (⟨0, 1, 2, 0, 0, 1, 2⟩ : Tri).relA =
        (⟨0, 1, 2, 0, 0, 1, 2⟩ : Tri).absA - (⟨0, 1, 2, 0, 0, 1, 2⟩ : Tri).base ∧
      (⟨0, 1, 2, 0, 0, 1, 2⟩ : Tri).relB =
        (⟨0, 1, 2, 0, 0, 1, 2⟩ : Tri).absB - (⟨0, 1, 2, 0, 0, 1, 2⟩ : Tri).base ∧
      (⟨0, 1, 2, 0, 0, 1, 2⟩ : Tri).relC =
        (⟨0, 1, 2, 0, 0, 1, 2⟩ : Tri).absC - (⟨0, 1, 2, 0, 0, 1, 2⟩ : Tri).base ∧
      (⟨0, 1, 2, 0, 0, 1, 2⟩ : Tri).relA < 65536 ∧
      (⟨0, 1, 2, 0, 0, 1, 2⟩ : Tri).relB < 65536 ∧
      (⟨0, 1, 2, 0, 0, 1, 2⟩ : Tri).relC < 65536) := by
  have hmem : (⟨0, 1, 2, 0, 0, 1, 2⟩ : Tri) ∈ (buildBucket ⟨2, .butt, .bevel, 2, 1⟩
      [⟨.line, [[(0,0),(10,0)]]⟩]).triangles := by decide
  exact ⟨hmem, c10_triangle_indices ⟨2, .butt, .bevel, 2, 1⟩
    [⟨.line, [[(0,0),(10,0)]]⟩] _ hmem⟩

end LineTess

namespace LineTess

theorem mkVertex_trav (t : List (Coord × Coord)) (s : VSpec) : (mkVertex t s).travelled = t := rfl

theorem travChain_const (t : List (Coord × Coord)) :
    ∀ l : List Vertex, (∀ v ∈ l, v.travelled = t) → travChain l
  | [], _ => List.chain'_nil
  | [a], _ => List.chain'_singleton a
  | a :: b :: l, h => by
    refine List.Chain'.cons ?_ (travChain_const t (b :: l)
      (fun v hv => h v (List.mem_cons_of_mem a hv)))
    show pfx a.travelled b.travelled
    rw [h a (List.mem_cons_self a (b :: l)),
      h b (List.mem_cons_of_mem a (List.mem_cons_self b l))]
    exact pfx_refl t

theorem travChain_append (l1 l2 : List Vertex) (h1 : travChain l1) (h2 : travChain l2)
    (h12 : ∀ x, l1.getLast? = some x → ∀ y, l2.head? = some y →
      pfx x.travelled y.travelled) : travChain (l1 ++ l2) := by
  unfold travChain at h1 h2 ⊢
  rw [List.chain'_append]
  exact ⟨h1, h2, fun x hx y hy => h12 x hx y hy⟩

theorem blockInv_log (n : ℕ) (b : LineBucket) (l : List TraceEvent)
    (last2 : Option (List (Coord × Coord))) (h : BlockInv n b last2) :
    BlockInv n { b with log := l } last2 :=
  ⟨h.nle, h.mono, h.lastEq, h.pairT, h.headT⟩

theorem blockInv_mk (n : ℕ) (bf : LineBucket) (last2 : Option (List (Coord × Coord)))
    (w : List Vertex) (hw : bf.vertices = w)
    (hnle : n ≤ w.length)
    (hmono : travChain (w.drop n))
    (hlast : lastTrav (w.drop n) = last2)
    (hpair : ∀ pi, bf.curPair = some pi →
      ∃ t, last2 = some t ∧ pi.v1.travelled = t ∧ pi.v2.travelled = t)
    (hhead : ∀ v, (w.drop n).head? = some v → v.travelled = []) :
    BlockInv n bf last2 := by
  subst hw
  exact ⟨hnle, hmono, hlast, hpair, hhead⟩

theorem setPair_vertices (b : LineBucket) (base : ℕ) (vs : List Vertex)
    (ps : Option (ℕ × ℕ)) : (setPair b base vs ps).vertices = b.vertices := by
  cases ps with
  | none => rfl
  | some ij =>
    obtain ⟨i, j⟩ := ij
    show (match vs.get? i, vs.get? j with
      | some v1, some v2 =>
        { b with curPair := some ⟨base + i, v1, base + j, v2⟩ }
      | _, _ => b).vertices = b.vertices
    cases h1 : vs.get? i <;> cases h2 : vs.get? j <;> simp

theorem appendTris_vertices (b : LineBucket) (base n : ℕ)
    (trs : List (Ref × Ref × Ref)) : (appendTris b base n trs).vertices = b.vertices := rfl

theorem setPair_pair_some (b : LineBucket) (base : ℕ) (vs : List Vertex) (i j : ℕ)
    (v1 v2 : Vertex) (h1 : vs.get? i = some v1) (h2 : vs.get? j = some v2) :
    (setPair b base vs (some (i, j))).curPair = some ⟨base + i, v1, base + j, v2⟩ := by
  show (match vs.get? i, vs.get? j with
    | some v1, some v2 =>
      { b with curPair := some ⟨base + i, v1, base + j, v2⟩ }
    | _, _ => b).curPair = _
  rw [h1, h2]

theorem lastTrav_none_nil (l : List Vertex) (h : lastTrav l = none) : l = [] := by
  cases l with
  | nil => rfl
  | cons a l2 =>
    exfalso
    unfold lastTrav at h
    rw [List.getLast?_eq_getLast (a :: l2) (by simp)] at h
    simp at h

theorem lastTrav_some_ex (l : List Vertex) (t : List (Coord × Coord))
    (h : lastTrav l = some t) : ∃ v, l.getLast? = some v ∧ v.travelled = t := by
  unfold lastTrav at h
  cases hg : l.getLast? with
  | none =>
    rw [hg] at h
    simp at h
  | some v =>
    rw [hg] at h
    refine ⟨v, rfl, ?_⟩
    have h2 : some v.travelled = some t := h
    exact Option.some.inj h2

theorem lastTrav_const (t : List (Coord × Coord)) (l : List Vertex) (hl : l ≠ [])
    (h : ∀ v ∈ l, v.travelled = t) : lastTrav l = some t := by
  unfold lastTrav
  rw [List.getLast?_eq_getLast l hl]
  show some (l.getLast hl).travelled = some t
  rw [h _ (List.getLast_mem hl)]

theorem lastTrav_append_ne (l1 l2 : List Vertex) (h : l2 ≠ []) :
    lastTrav (l1 ++ l2) = lastTrav l2 := by
  unfold lastTrav
  rw [List.getLast?_append_of_ne_nil l1 h]

theorem head_mem_vert (l : List Vertex) (v : Vertex) (h : l.head? = some v) : v ∈ l := by
  cases l with
  | nil => simp at h
  | cons a l2 =>
    have h2 : a = v := Option.some.inj h
    rw [← h2]
    exact List.mem_cons_self a l2

theorem getLast_mem_vert (l : List Vertex) (v : Vertex) (h : l.getLast? = some v) : v ∈ l := by
  have hne : l ≠ [] := by
    intro h0
    rw [h0] at h
    exact Option.noConfusion h
  rw [List.getLast?_eq_getLast l hne] at h
  injection h with h
  rw [← h]
  exact List.getLast_mem hne

theorem stage1_pairVerts (b : LineBucket) (n : ℕ) (b1 : LineBucket)
    (hb1 : (if (ensureSegment b n).2 then reEmitPair (ensureSegment b n).1
            else (ensureSegment b n).1) = b1) :
    (b1.vertices = b.vertices ∧ b1.curPair = b.curPair) ∨
    (∃ pi, b.curPair = some pi ∧ b1.vertices = b.vertices ++ [pi.v1, pi.v2] ∧
      b1.curPair = some ⟨b.vertices.length, pi.v1, b.vertices.length + 1, pi.v2⟩) := by
  subst hb1
  cases hc : b.curSeg with
  | none =>
    cases hp : b.curPair with
    | none =>
      left
      constructor <;> simp [ensureSegment, hc, reEmitPair, hp]
    | some pi =>
      right
      refine ⟨pi, rfl, ?_, ?_⟩ <;> simp [ensureSegment, hc, reEmitPair, hp]
  | some c =>
    by_cases hov : maxSegmentVertices < c.vertexLength + n
    · cases hp : b.curPair with
      | none =>
        left
        constructor <;> simp [ensureSegment, hc, hov, reEmitPair, hp]
      | some pi =>
        right
        refine ⟨pi, rfl, ?_, ?_⟩ <;> simp [ensureSegment, hc, hov, reEmitPair, hp]
    · left
      constructor <;> simp [ensureSegment, hc, hov, reEmitPair]

end LineTess

namespace LineTess

theorem fanCount_pos (d1 d2 : Coord) (rl : ℚ) : 0 < fanCount d1 d2 rl := by
  unfold fanCount
  split <;> omega

theorem pieFan_verts_ne (p d1 d2 : Coord) (rl : ℚ) (t2 : List (Coord × Coord)) :
    (addPieSliceFanEv p d1 d2 rl t2).verts ≠ [] := by
  intro h0
  have hl := congrArg List.length h0
  simp only [addPieSliceFanEv, List.length_map, List.length_range, List.length_nil] at hl
  have := fanCount_pos d1 d2 rl
  omega

theorem evOK_logEv (last : Option (List (Coord × Coord))) (e : TraceEvent) :
    EvOK last (logEv e) := Or.inl ⟨rfl, rfl, rfl⟩

theorem evOK_startPair_none (p d : Coord) : EvOK none (startPairEv p d []) := by
  unfold EvOK
  refine Or.inr ⟨by simp [startPairEv], ?_, rfl, rfl⟩
  intro i j hij
  have hij2 : some ((0 : ℕ), (1 : ℕ)) = some (i, j) := hij
  injection hij2 with hij3
  rw [Prod.mk.injEq] at hij3
  obtain ⟨hi, hj⟩ := hij3
  subst hi
  subst hj
  exact ⟨Nat.zero_lt_two, Nat.one_lt_two⟩

theorem evOK_startPair (t t2 : List (Coord × Coord)) (p d : Coord) (h : pfx t t2) :
    EvOK (some t) (startPairEv p d t2) := by
  unfold EvOK
  refine Or.inr ⟨by simp [startPairEv], ?_, h, ?_⟩
  · intro i j hij
    have hij2 : some ((0 : ℕ), (1 : ℕ)) = some (i, j) := hij
    injection hij2 with hij3
    rw [Prod.mk.injEq] at hij3
    obtain ⟨hi, hj⟩ := hij3
    subst hi
    subst hj
    exact ⟨Nat.zero_lt_two, Nat.one_lt_two⟩
  · intro h0
    exact Option.noConfusion (show some ((0 : ℕ), (1 : ℕ)) = none from h0)

theorem evOK_acv (t t2 : List (Coord × Coord)) (p : Coord) (mk : Bool → ExtrKind)
    (h : pfx t t2) : EvOK (some t) (addCurrentVertexEv p mk t2) := by
  unfold EvOK
  refine Or.inr ⟨by simp [addCurrentVertexEv], ?_, h, ?_⟩
  · intro i j hij
    have hij2 : some ((0 : ℕ), (1 : ℕ)) = some (i, j) := hij
    injection hij2 with hij3
    rw [Prod.mk.injEq] at hij3
    obtain ⟨hi, hj⟩ := hij3
    subst hi
    subst hj
    exact ⟨Nat.zero_lt_two, Nat.one_lt_two⟩
  · intro h0
    exact Option.noConfusion (show some ((0 : ℕ), (1 : ℕ)) = none from h0)

theorem evOK_bevelJoin (t2 : List (Coord × Coord)) (p d2 : Coord) :
    EvOK (some t2) (bevelJoinEv p d2 t2) := by
  unfold EvOK
  refine Or.inr ⟨by simp [bevelJoinEv], ?_, pfx_refl t2, ?_⟩
  · intro i j hij
    have hij2 : some ((1 : ℕ), (2 : ℕ)) = some (i, j) := hij
    injection hij2 with hij3
    rw [Prod.mk.injEq] at hij3
    obtain ⟨hi, hj⟩ := hij3
    subst hi
    subst hj
    constructor
    · show (1 : ℕ) < 3
      omega
    · show (2 : ℕ) < 3
      omega
  · intro h0
    exact Option.noConfusion (show some ((1 : ℕ), (2 : ℕ)) = none from h0)

theorem evOK_bevelCorner (t2 : List (Coord × Coord)) (p : Coord) :
    EvOK (some t2) (bevelCornerEv p t2) := by
  unfold EvOK
  refine Or.inr ⟨by simp [bevelCornerEv], ?_, pfx_refl t2, fun _ => rfl⟩
  intro i j hij
  exact Option.noConfusion (show (none : Option (ℕ × ℕ)) = some (i, j) from hij)

theorem evOK_pieFan (t2 : List (Coord × Coord)) (p d1 d2 : Coord) (rl : ℚ) :
    EvOK (some t2) (addPieSliceFanEv p d1 d2 rl t2) := by
  unfold EvOK
  refine Or.inr ⟨pieFan_verts_ne p d1 d2 rl t2, ?_, pfx_refl t2, fun _ => rfl⟩
  intro i j hij
  exact Option.noConfusion (show (none : Option (ℕ × ℕ)) = some (i, j) from hij)

theorem evOK_squareCap (t2 : List (Coord × Coord)) (p d : Coord) :
    EvOK (some t2) (squareCapEv p d t2) := by
  unfold EvOK
  refine Or.inr ⟨by simp [squareCapEv], ?_, pfx_refl t2, fun _ => rfl⟩
  intro i j hij
  exact Option.noConfusion (show (none : Option (ℕ × ℕ)) = some (i, j) from hij)

theorem evOK_roundCap (t2 : List (Coord × Coord)) (p d : Coord) :
    EvOK (some t2) (roundCapEv p d t2) := by
  unfold EvOK
  refine Or.inr ⟨by simp [roundCapEv], ?_, pfx_refl t2, fun _ => rfl⟩
  intro i j hij
  exact Option.noConfusion (show (none : Option (ℕ × ℕ)) = some (i, j) from hij)

theorem nextLast_ne (last : Option (List (Coord × Coord))) (ev : Event)
    (h : ev.verts ≠ []) : nextLast last ev = some ev.trav := by
  unfold nextLast
  rw [if_neg h]

theorem nextLast_logEv (last : Option (List (Coord × Coord))) (e : TraceEvent) :
    nextLast last (logEv e) = last := by
  simp [nextLast, logEv]

theorem nextLast_startPair (last : Option (List (Coord × Coord))) (p d : Coord)
    (t2 : List (Coord × Coord)) : nextLast last (startPairEv p d t2) = some t2 :=
  nextLast_ne last _ (by simp [startPairEv])

theorem nextLast_acv (last : Option (List (Coord × Coord))) (p : Coord) (mk : Bool → ExtrKind)
    (t2 : List (Coord × Coord)) : nextLast last (addCurrentVertexEv p mk t2) = some t2 :=
  nextLast_ne last _ (by simp [addCurrentVertexEv])

theorem nextLast_bevelJoin (last : Option (List (Coord × Coord))) (p d2 : Coord)
    (t2 : List (Coord × Coord)) : nextLast last (bevelJoinEv p d2 t2) = some t2 :=
  nextLast_ne last _ (by simp [bevelJoinEv])

theorem nextLast_bevelCorner (last : Option (List (Coord × Coord))) (p : Coord)
    (t2 : List (Coord × Coord)) : nextLast last (bevelCornerEv p t2) = some t2 :=
  nextLast_ne last _ (by simp [bevelCornerEv])

theorem nextLast_pieFan (last : Option (List (Coord × Coord))) (p d1 d2 : Coord) (rl : ℚ)
    (t2 : List (Coord × Coord)) : nextLast last (addPieSliceFanEv p d1 d2 rl t2) = some t2 :=
  nextLast_ne last _ (pieFan_verts_ne p d1 d2 rl t2)

theorem nextLast_squareCap (last : Option (List (Coord × Coord))) (p d : Coord)
    (t2 : List (Coord × Coord)) : nextLast last (squareCapEv p d t2) = some t2 :=
  nextLast_ne last _ (by simp [squareCapEv])

theorem nextLast_roundCap (last : Option (List (Coord × Coord))) (p d : Coord)
    (t2 : List (Coord × Coord)) : nextLast last (roundCapEv p d t2) = some t2 :=
  nextLast_ne last _ (by simp [roundCapEv])

theorem eventsOK_cons (last : Option (List (Coord × Coord))) (ev : Event) (evs : List Event)
    (h1 : EvOK last ev) (h2 : EventsOK (nextLast last ev) evs) : EventsOK last (ev :: evs) := by
  show EvOK last ev ∧ EventsOK (nextLast last ev) evs
  exact ⟨h1, h2⟩

theorem walkEvents_evOK (pm : LayoutParams) (tail : TailSpec) :
    ∀ (rest : List Coord) (t : List (Coord × Coord)) (prev cur : Coord),
      EventsOK (some t) (walkEvents pm tail t prev cur rest)
  | [], t, prev, cur => by
    simp only [walkEvents]
    refine eventsOK_cons _ _ _ (evOK_acv t _ cur _ (pfx_append t _)) ?_
    rw [nextLast_acv]
    cases tail with
    | openCaps =>
      cases hcap : pm.cap with
      | butt =>
        simp only [capGeomEvs, List.nil_append]
        exact eventsOK_cons _ _ _ (evOK_logEv _ _) True.intro
      | square =>
        simp only [capGeomEvs, List.cons_append, List.nil_append]
        refine eventsOK_cons _ _ _ (evOK_squareCap _ cur _) ?_
        rw [nextLast_squareCap]
        exact eventsOK_cons _ _ _ (evOK_logEv _ _) True.intro
      | round =>
        simp only [capGeomEvs, List.cons_append, List.nil_append]
        refine eventsOK_cons _ _ _ (evOK_roundCap _ cur _) ?_
        rw [nextLast_roundCap]
        exact eventsOK_cons _ _ _ (evOK_logEv _ _) True.intro
    | ringWrap dF =>
      simp only [wrapJoinEvs]
      rcases hk : joinDispatch pm.join (dirOf prev cur) dF pm.miterLimit
        with _ | _ | _ | _
      · exact eventsOK_cons _ _ _ (evOK_logEv _ _) True.intro
      · exact eventsOK_cons _ _ _ (evOK_logEv _ _) True.intro
      · refine eventsOK_cons _ _ _ (evOK_logEv _ _) ?_
        rw [nextLast_logEv]
        exact eventsOK_cons _ _ _ (evOK_bevelCorner _ cur) True.intro
      · refine eventsOK_cons _ _ _ (evOK_logEv _ _) ?_
        rw [nextLast_logEv]
        exact eventsOK_cons _ _ _ (evOK_pieFan _ cur _ dF pm.roundLimit) True.intro
  | next :: rest, t, prev, cur => by
    simp only [walkEvents, joinEvs]
    rcases hk : joinDispatch pm.join (dirOf prev cur) (dirOf cur next) pm.miterLimit
      with _ | _ | _ | _ <;>
      simp only [List.cons_append, List.singleton_append, List.nil_append]
    · refine eventsOK_cons _ _ _ (evOK_logEv _ _) ?_
      rw [nextLast_logEv]
      refine eventsOK_cons _ _ _ (evOK_acv t _ cur _ (pfx_append t _)) ?_
      rw [nextLast_acv]
      exact walkEvents_evOK pm tail rest (t ++ [(prev, cur)]) cur next
    · refine eventsOK_cons _ _ _ (evOK_logEv _ _) ?_
      rw [nextLast_logEv]
      refine eventsOK_cons _ _ _ (evOK_acv t _ cur _ (pfx_append t _)) ?_
      rw [nextLast_acv]
      exact walkEvents_evOK pm tail rest (t ++ [(prev, cur)]) cur next
    · refine eventsOK_cons _ _ _ (evOK_logEv _ _) ?_
      rw [nextLast_logEv]
      refine eventsOK_cons _ _ _ (evOK_acv t _ cur _ (pfx_append t _)) ?_
      rw [nextLast_acv]
      refine eventsOK_cons _ _ _ (evOK_bevelJoin _ cur _) ?_
      rw [nextLast_bevelJoin]
      exact walkEvents_evOK pm tail rest (t ++ [(prev, cur)]) cur next
    · refine eventsOK_cons _ _ _ (evOK_logEv _ _) ?_
      rw [nextLast_logEv]
      refine eventsOK_cons _ _ _ (evOK_acv t _ cur _ (pfx_append t _)) ?_
      rw [nextLast_acv]
      refine eventsOK_cons _ _ _ (evOK_pieFan _ cur _ _ pm.roundLimit) ?_
      rw [nextLast_pieFan]
      refine eventsOK_cons _ _ _ (evOK_startPair _ _ cur _ (pfx_refl _)) ?_
      rw [nextLast_startPair]
      exact walkEvents_evOK pm tail rest (t ++ [(prev, cur)]) cur next

theorem eventsForLine_evOK (pm : LayoutParams) (ps : List Coord) :
    EventsOK none (eventsForLine pm ps) := by
  match ps with
  | [] => exact True.intro
  | [p] => exact True.intro
  | p0 :: p1 :: rest =>
    simp only [eventsForLine]
    split
    · refine eventsOK_cons _ _ _ (evOK_startPair_none p0 _) ?_
      rw [nextLast_startPair]
      exact walkEvents_evOK pm _ rest [] p0 p1
    · refine eventsOK_cons _ _ _ (evOK_logEv _ _) ?_
      rw [nextLast_logEv]
      refine eventsOK_cons _ _ _ (evOK_startPair_none p0 _) ?_
      rw [nextLast_startPair]
      cases hcap : pm.cap with
      | butt =>
        simp only [capGeomEvs, List.nil_append]
        exact walkEvents_evOK pm _ rest [] p0 p1
      | square =>
        simp only [capGeomEvs, List.cons_append, List.nil_append]
        refine eventsOK_cons _ _ _ (evOK_squareCap _ p0 _) ?_
        rw [nextLast_squareCap]
        exact walkEvents_evOK pm _ rest [] p0 p1
      | round =>
        simp only [capGeomEvs, List.cons_append, List.nil_append]
        refine eventsOK_cons _ _ _ (evOK_roundCap _ p0 _) ?_
        rw [nextLast_roundCap]
        exact walkEvents_evOK pm _ rest [] p0 p1

end LineTess

namespace LineTess

theorem emitEvent_block (n : ℕ) (b : LineBucket) (last : Option (List (Coord × Coord)))
    (ev : Event) (hB : BlockInv n b last) (hev : EvOK last ev) :
    BlockInv n (emitEvent b ev) (nextLast last ev) := by
  unfold EvOK at hev
  rcases hev with ⟨hv0, ht0, _⟩ | ⟨hne, hbnd, hmatch⟩
  · have he : emitEvent b ev = { b with log := b.log ++ ev.logs } := by
      unfold emitEvent
      rw [if_pos ⟨hv0, ht0⟩]
    have hnl : nextLast last ev = last := by
      unfold nextLast
      rw [if_pos hv0]
    rw [he, hnl]
    exact ⟨hB.nle, hB.mono, hB.lastEq, hB.pairT, hB.headT⟩
  · have hv : ¬(ev.verts = [] ∧ ev.tris = []) := fun h0 => hne h0.1
    have hnl : nextLast last ev = some ev.trav := by
      unfold nextLast
      rw [if_neg hne]
    rw [emitEvent_main b ev hv, hnl]
    refine blockInv_log _ _ _ _ ?_
    generalize hb1 : (if (ensureSegment b ev.verts.length).2
        then reEmitPair (ensureSegment b ev.verts.length).1
        else (ensureSegment b ev.verts.length).1) = b1
    have hstage := stage1_pairVerts b ev.verts.length b1 hb1
    have hVS : ∀ v ∈ ev.verts.map (mkVertex ev.trav), v.travelled = ev.trav := by
      intro v hvm
      obtain ⟨s, hs, rfl⟩ := List.mem_map.mp hvm
      rfl
    have hVSne : ev.verts.map (mkVertex ev.trav) ≠ [] := by
      intro h0
      apply hne
      have hl := congrArg List.length h0
      rw [List.length_map, List.length_nil] at hl
      exact List.length_eq_zero.mp hl
    have hfv : (setPair (appendTris (appendVerts b1 (ev.verts.map (mkVertex ev.trav)))
          b1.vertices.length ev.verts.length ev.tris) b1.vertices.length
          (ev.verts.map (mkVertex ev.trav)) ev.pairSet).vertices
        = b1.vertices ++ ev.verts.map (mkVertex ev.trav) := by
      rw [setPair_vertices, appendTris_vertices]
      rfl
    cases hlast : last with
    | none =>
      subst hlast
      have hmatch2 : ev.trav = [] ∧ ev.pairSet.isSome = true := hmatch
      have hblock : b.vertices.drop n = [] := lastTrav_none_nil _ hB.lastEq
      have hpnone : b.curPair = none := by
        cases hp : b.curPair with
        | none => rfl
        | some pi =>
          obtain ⟨t0, ht0b, _⟩ := hB.pairT pi hp
          exact Option.noConfusion ht0b
      rcases hstage with ⟨hbv, hbp⟩ | ⟨pi, hp, hbv2, hbp2⟩
      · have hdrop : (b1.vertices ++ ev.verts.map (mkVertex ev.trav)).drop n
            = ev.verts.map (mkVertex ev.trav) := by
          rw [hbv, List.drop_append_of_le_length hB.nle, hblock, List.nil_append]
        refine blockInv_mk n _ (some ev.trav)
          (b1.vertices ++ ev.verts.map (mkVertex ev.trav)) hfv ?_ ?_ ?_ ?_ ?_
        · rw [hbv, List.length_append]
          exact le_trans hB.nle (Nat.le_add_right _ _)
        · rw [hdrop]
          exact travChain_const ev.trav _ hVS
        · rw [hdrop]
          exact lastTrav_const ev.trav _ hVSne hVS
        · intro pi2 hpi2
          cases hps : ev.pairSet with
          | none =>
            have h5 := hmatch2.2
            rw [hps] at h5
            simp at h5
          | some ij =>
            obtain ⟨i, j⟩ := ij
            have hbij := hbnd i j hps
            have hi : i < (ev.verts.map (mkVertex ev.trav)).length := by
              rw [List.length_map]
              exact hbij.1
            have hj : j < (ev.verts.map (mkVertex ev.trav)).length := by
              rw [List.length_map]
              exact hbij.2
            rw [hps, setPair_pair_some _ _ _ i j _ _
              (List.get?_eq_get hi) (List.get?_eq_get hj)] at hpi2
            injection hpi2 with hpi2
            rw [← hpi2]
            exact ⟨ev.trav, rfl, hVS _ (List.get_mem _ _ _), hVS _ (List.get_mem _ _ _)⟩
        · intro v hv2
          rw [hdrop] at hv2
          rw [hVS v (head_mem_vert _ v hv2)]
          exact hmatch2.1
      · rw [hpnone] at hp
        exact Option.noConfusion hp
    | some t0 =>
      subst hlast
      have hmatch2 : pfx t0 ev.trav ∧ (ev.pairSet = none → ev.trav = t0) := hmatch
      obtain ⟨xl, hxl, hxlt⟩ := lastTrav_some_ex _ _ hB.lastEq
      obtain ⟨extra, hbv, hextra, hbp2⟩ :
          ∃ extra : List Vertex, b1.vertices = b.vertices ++ extra ∧
            (∀ v ∈ extra, v.travelled = t0) ∧
            (∀ pi2, b1.curPair = some pi2 →
              pi2.v1.travelled = t0 ∧ pi2.v2.travelled = t0) := by
        rcases hstage with ⟨hbv, hbp⟩ | ⟨pi, hp, hbv, hbp⟩
        · refine ⟨[], by rw [hbv, List.append_nil], by simp, ?_⟩
          intro pi2 hpi2
          obtain ⟨t1, ht1, h1, h2⟩ := hB.pairT pi2 (hbp.symm.trans hpi2)
          injection ht1 with ht1
          subst ht1
          exact ⟨h1, h2⟩
        · obtain ⟨t1, ht1, h1, h2⟩ := hB.pairT pi hp
          injection ht1 with ht1
          subst ht1
          refine ⟨[pi.v1, pi.v2], hbv, ?_, ?_⟩
          · intro v hvm
            rcases List.mem_cons.mp hvm with h3 | hvm2
            · rw [h3]
              exact h1
            · rcases List.mem_cons.mp hvm2 with h3 | hvm3
              · rw [h3]
                exact h2
              · exact absurd hvm3 (List.not_mem_nil v)
          · intro pi2 hpi2
            have h4 := hbp.symm.trans hpi2
            injection h4 with h4
            rw [← h4]
            exact ⟨h1, h2⟩
      have hdrop : (b1.vertices ++ ev.verts.map (mkVertex ev.trav)).drop n
          = b.vertices.drop n ++ (extra ++ ev.verts.map (mkVertex ev.trav)) := by
        rw [hbv, List.append_assoc, List.drop_append_of_le_length hB.nle]
      have heVne : extra ++ ev.verts.map (mkVertex ev.trav) ≠ [] := by
        intro h0
        exact hVSne (List.nil_eq_append_iff.mp h0.symm).2
      refine blockInv_mk n _ (some ev.trav)
        (b1.vertices ++ ev.verts.map (mkVertex ev.trav)) hfv ?_ ?_ ?_ ?_ ?_
      · rw [hbv, List.length_append, List.length_append]
        have := hB.nle
        omega
      · rw [hdrop]
        refine travChain_append _ _ hB.mono
          (travChain_append _ _ (travChain_const t0 extra hextra)
            (travChain_const ev.trav _ hVS) ?_) ?_
        · intro x hx y hy
          rw [hextra x (getLast_mem_vert extra x hx), hVS y (head_mem_vert _ y hy)]
          exact hmatch2.1
        · intro x hx y hy
          rw [hxl] at hx
          injection hx with hx
          rw [← hx, hxlt]
          rcases List.mem_append.mp (head_mem_vert _ y hy) with hy2 | hy2
          · rw [hextra y hy2]
            exact pfx_refl t0
          · rw [hVS y hy2]
            exact hmatch2.1
      · rw [hdrop, lastTrav_append_ne _ _ heVne, lastTrav_append_ne _ _ hVSne]
        exact lastTrav_const ev.trav _ hVSne hVS
      · intro pi2 hpi2
        cases hps : ev.pairSet with
        | none =>
          rw [hps] at hpi2
          have hpi3 : b1.curPair = some pi2 := hpi2
          obtain ⟨h1, h2⟩ := hbp2 pi2 hpi3
          have htr := hmatch2.2 hps
          refine ⟨ev.trav, rfl, ?_, ?_⟩
          · rw [h1, htr]
          · rw [h2, htr]
        | some ij =>
          obtain ⟨i, j⟩ := ij
          have hbij := hbnd i j hps
          have hi : i < (ev.verts.map (mkVertex ev.trav)).length := by
            rw [List.length_map]
            exact hbij.1
          have hj : j < (ev.verts.map (mkVertex ev.trav)).length := by
            rw [List.length_map]
            exact hbij.2
          rw [hps, setPair_pair_some _ _ _ i j _ _
            (List.get?_eq_get hi) (List.get?_eq_get hj)] at hpi2
          injection hpi2 with hpi2
          rw [← hpi2]
          exact ⟨ev.trav, rfl, hVS _ (List.get_mem _ _ _), hVS _ (List.get_mem _ _ _)⟩
      · intro v hv2
        rw [hdrop] at hv2
        cases hbk : b.vertices.drop n with
        | nil =>
          rw [hbk] at hxl
          exact Option.noConfusion hxl
        | cons a bl =>
          rw [hbk, List.cons_append] at hv2
          have h6 : a = v := Option.some.inj hv2
          rw [← h6]
          refine hB.headT a ?_
          rw [hbk]
          rfl

theorem applyEvents_block (n : ℕ) (evs : List Event) :
    ∀ (b : LineBucket) (last : Option (List (Coord × Coord))),
      BlockInv n b last → EventsOK last evs →
      ∃ last2, BlockInv n (applyEvents b evs) last2 := by
  induction evs with
  | nil =>
    intro b last hB _
    exact ⟨last, hB⟩
  | cons e evs ih =>
    intro b last hB hE
    have hE2 : EvOK last e ∧ EventsOK (nextLast last e) evs := hE
    rw [applyEvents_cons]
    exact ih _ _ (emitEvent_block n b last e hB hE2.1) hE2.2

theorem blockInv_init (b : LineBucket) :
    BlockInv b.vertices.length { b with curPair := none } none := by
  refine ⟨le_refl _, ?_, ?_, ?_, ?_⟩
  · show travChain (b.vertices.drop b.vertices.length)
    rw [List.drop_length]
    exact List.chain'_nil
  · show lastTrav (b.vertices.drop b.vertices.length) = none
    rw [List.drop_length]
    rfl
  · intro pi hpi
    exact Option.noConfusion hpi
  · intro v hv
    have hv2 : (b.vertices.drop b.vertices.length).head? = some v := hv
    rw [List.drop_length] at hv2
    exact absurd hv2 (by simp)

theorem addGeometry_block (pm : LayoutParams) (ft : FeatureType) (b : LineBucket)
    (line : List Coord) :
    (∀ v, ((addGeometry pm ft b line).vertices.drop b.vertices.length).head? = some v →
      v.travelled = []) ∧
    travChain ((addGeometry pm ft b line).vertices.drop b.vertices.length) := by
  by_cases hlen : (dedupConsec line).length < 2
  · have he : addGeometry pm ft b line = b := by
      simp only [addGeometry]
      rw [if_pos hlen]
    rw [he, List.drop_length]
    exact ⟨fun v hv => absurd hv (by simp), List.chain'_nil⟩
  · have he : addGeometry pm ft b line
        = applyEvents { b with curPair := none } (eventsForLine pm (dedupConsec line)) := by
      simp only [addGeometry]
      rw [if_neg hlen]
    obtain ⟨last2, hB⟩ := applyEvents_block b.vertices.length
      (eventsForLine pm (dedupConsec line)) { b with curPair := none } none
      (blockInv_init b) (eventsForLine_evOK pm (dedupConsec line))
    rw [he]
    exact ⟨hB.headT, hB.mono⟩

/-- C2: for every Line tessellated by `addGeometry`, the formal
`linesofar` record written into the vertices is empty — numeric value 0
under every nonnegative length function — at the first vertex emitted for
the Line, its numeric value is monotonically non-decreasing across the
vertices emitted for that Line, and it resets to 0 at the first vertex of
the next Line tessellated into the same bucket. -/
theorem c2_linesofar (pm : LayoutParams) (ft : FeatureType) (b : LineBucket)
    (line line2 : List Coord) (len : Coord → Coord → ℚ)
    (hlen : ∀ p q, 0 ≤ len p q) :
    (∀ v, ((addGeometry pm ft b line).vertices.drop b.vertices.length).head? = some v →
      travelledValue len v.travelled = 0) ∧
    List.Chain' (fun x y => travelledValue len x.travelled ≤ travelledValue len y.travelled)
      ((addGeometry pm ft b line).vertices.drop b.vertices.length) ∧
    (∀ v, ((addGeometry pm ft (addGeometry pm ft b line) line2).vertices.drop
        (addGeometry pm ft b line).vertices.length).head? = some v →
      travelledValue len v.travelled = 0) := by
  obtain ⟨h1, h2⟩ := addGeometry_block pm ft b line
  obtain ⟨h1b, _⟩ := addGeometry_block pm ft (addGeometry pm ft b line) line2
  refine ⟨?_, ?_, ?_⟩
  · intro v hv
    rw [h1 v hv]
    exact travelledValue_nil len
  · exact List.Chain'.imp (fun x y hxy => travelledValue_mono len hlen hxy) h2
  · intro v hv
    rw [h1b v hv]
    exact travelledValue_nil len

/-- Witness for C2 at a concrete two-line bucket and the zero length
function (the nonnegativity hypothesis discharged at `fun _ _ => 0`). -/
theorem c2_witness :
    (∀ p q : Coord, 0 ≤ (fun _ _ => (0 : ℚ)) p q) ∧
    ((∀ v, ((addGeometry ⟨2, .butt, .bevel, 2, 1⟩ .line LineBucket.empty
          [(0,0),(10,0)]).vertices.drop LineBucket.empty.vertices.length).head? = some v →
        travelledValue (fun _ _ => (0 : ℚ)) v.travelled = 0) ∧
      List.Chain' (fun x y => travelledValue (fun _ _ => (0 : ℚ)) x.travelled ≤
          travelledValue (fun _ _ => (0 : ℚ)) y.travelled)
        ((addGeometry ⟨2, .butt, .bevel, 2, 1⟩ .line LineBucket.empty
          [(0,0),(10,0)]).vertices.drop LineBucket.empty.vertices.length) ∧
      (∀ v, ((addGeometry ⟨2, .butt, .bevel, 2, 1⟩ .line
            (addGeometry ⟨2, .butt, .bevel, 2, 1⟩ .line LineBucket.empty [(0,0),(10,0)])
            [(0,0),(0,10)]).vertices.drop
          (addGeometry ⟨2, .butt, .bevel, 2, 1⟩ .line LineBucket.empty
            [(0,0),(10,0)]).vertices.length).head? = some v →
        travelledValue (fun _ _ => (0 : ℚ)) v.travelled = 0)) :=
  ⟨fun _ _ => le_refl 0,
    c2_linesofar ⟨2, .butt, .bevel, 2, 1⟩ .line LineBucket.empty [(0,0),(10,0)] [(0,0),(0,10)]
      (fun _ _ => (0 : ℚ)) (fun _ _ => le_refl 0)⟩

end LineTess
